import Mathlib

/-!
Verification development for the sentence segment merger of
`src/update_transcripts.py` (`merge_segments_to_sentences`, lines 86-168).

Modelling conventions:
* Text is `List Char`.  Python `str.strip()` and the regex class `\s` are
  modelled by the ASCII whitespace set (space, tab, newline, carriage
  return, vertical tab, form feed); all inputs appearing in the spec's
  scenarios are ASCII.
* Times (`start`, `duration`) are `ℚ`, modelling the exact real-number
  semantics of the Python float arithmetic.
* Python `round(x, 3)` is modelled as exact round-half-to-even at three
  decimal places (`round3`).
* `re.split(r"(?<=[.!?？！。…])\s+", text)` is modelled by `pySplit`,
  a left-to-right scan that closes the current piece whenever a maximal
  whitespace run immediately preceded by a terminator character is
  consumed; the consumed whitespace is discarded, exactly as `re.split`
  drops the matched separator.
* `_SENTENCE_END_RE.search` with pattern `[.!?？！。…]+$` succeeds exactly
  when the final character of the string is a terminator; `isSentenceEnd`
  tests that.
-/

/-- The sentence-terminator character set of `_SENTENCE_END_RE` /
`_SENTENCE_SPLIT_RE` (line 34-35 of the source). -/
def isTerm (c : Char) : Bool :=
  c == '.' || c == '!' || c == '?' || c == '？' || c == '！' || c == '。' || c == '…'

/-- Whitespace, modelling Python `\s` / `str.strip()` on the ASCII range. -/
def isSpace (c : Char) : Bool :=
  c == ' ' || c == '\t' || c == '\n' || c == '\r' || c == Char.ofNat 11 || c == Char.ofNat 12

/-- Python `str.strip()`: drop leading and trailing whitespace. -/
def stripChars (l : List Char) : List Char :=
  ((l.dropWhile isSpace).reverse.dropWhile isSpace).reverse

/-- Model of `re.split(r"(?<=[.!?？！。…])\s+", ·)`.

`pySplit sk pt l` returns the first piece and the remaining pieces of the
split of `l`, where `sk` says we are currently inside a matched whitespace
run (consuming `\s+` greedily) and `pt` says the previous character was a
terminator (the lookbehind).  The result is `(head piece, later pieces)`;
the full split of `l` is `(pySplit false false l).1 :: (pySplit false false l).2`. -/
def pySplit : List Char → Bool → Bool → List Char × List (List Char)
  | [], _, _ => ([], [])
  | c :: rest, sk, pt =>
    if sk then
      if isSpace c then pySplit rest true false
      else
        let r := pySplit rest false (isTerm c)
        (c :: r.1, r.2)
    else if pt && isSpace c then
      let r := pySplit rest true false
      ([], r.1 :: r.2)
    else
      let r := pySplit rest false (isTerm c)
      (c :: r.1, r.2)

/-- The full list of pieces of the regex split (always non-empty, like
`re.split`'s result). -/
def pySplitList (l : List Char) : List (List Char) :=
  (pySplit l false false).1 :: (pySplit l false false).2

/-- Line 110 of the source:
`[s.strip() for s in _SENTENCE_SPLIT_RE.split(raw_text) if s.strip()]`. -/
def splitSentences (t : List Char) : List (List Char) :=
  ((pySplitList t).map stripChars).filter (fun s => !s.isEmpty)

/-- Line 114: `total_len = sum(len(s) for s in sentences) or len(sentences)`
(Python `or` substitutes the count when the sum is `0`). -/
def totalLen (ss : List (List Char)) : ℕ :=
  let n := (ss.map List.length).sum
  if n = 0 then ss.length else n

/-- Model of `_SENTENCE_END_RE.search(s)` with pattern `[.!?？！。…]+$`:
succeeds iff the last character of `s` is a terminator. -/
def isSentenceEnd (t : List Char) : Bool :=
  match t.getLast? with
  | some c => isTerm c
  | none => false

/-- One raw transcript fragment (the dicts consumed by
`merge_segments_to_sentences`; `text`, `start`, `duration`). -/
structure RawFragment where
  text : List Char
  start : ℚ
  duration : ℚ
deriving DecidableEq

/-- An intra-fragment sentence piece with interpolated timing
(`s_text, s_start, s_dur` of line 128). -/
structure Piece where
  text : List Char
  start : ℚ
  duration : ℚ
deriving DecidableEq

/-- One output sentence segment (the dicts appended to `merged`). -/
structure SentenceSegment where
  text : List Char
  start : ℚ
  duration : ℚ
deriving DecidableEq

/-- Lines 115-126: walk the sentences with a cursor starting at the
fragment's `start`; every sentence but the last gets
`duration * (len s / total_len)`, the last gets `end - cursor`.
Arguments: fragment duration, `total_len` (as `ℚ`), fragment end,
current cursor, remaining sentences. -/
def buildPieces (dur tot endT : ℚ) : List (List Char) → ℚ → List Piece
  | [], _ => []
  | [s], cursor => [⟨s, cursor, endT - cursor⟩]
  | s :: s2 :: rest, cursor =>
    let d := dur * ((s.length : ℚ) / tot)
    ⟨s, cursor, d⟩ :: buildPieces dur tot endT (s2 :: rest) (cursor + d)

/-- The intra-fragment splitter: lines 102 and 110-126 applied to one
fragment. -/
def fragmentPieces (f : RawFragment) : List Piece :=
  let ss := splitSentences (stripChars f.text)
  buildPieces f.duration (totalLen ss : ℚ) (f.start + f.duration) ss f.start

/-- Exact round-half-to-even to an integer, modelling Python `round`. -/
def roundHalfEven (q : ℚ) : ℤ :=
  if q - ⌊q⌋ < 1 / 2 then ⌊q⌋
  else if (1 : ℚ) / 2 < q - ⌊q⌋ then ⌊q⌋ + 1
  else if ⌊q⌋ % 2 = 0 then ⌊q⌋ else ⌊q⌋ + 1

/-- Python `round(x, 3)`. -/
def round3 (q : ℚ) : ℚ := (roundHalfEven (q * 1000) : ℚ) / 1000

/-- Python `" ".join(...)` on the piece texts. -/
def joinSpace : List (List Char) → List Char
  | [] => []
  | [t] => t
  | t :: u :: ts => t ++ ' ' :: joinSpace (u :: ts)

/-- The mutable state of the loop in `merge_segments_to_sentences`:
`merged`, `buffer_texts`, `buffer_start`, `buffer_text_len`, `last_end`
(lines 94-99). -/
structure MState where
  merged : List SentenceSegment
  bufTexts : List (List Char)
  bufStart : Option ℚ
  bufLen : ℕ
  lastEnd : Option ℚ
deriving DecidableEq

/-- Initial loop state (lines 94-99). -/
def initState : MState := ⟨[], [], none, 0, none⟩

/-- The defensive `if buffer_start is None or last_end is None` branch of
lines 142-144, at a flush: `last_end` was just assigned `s_end`, so only an
unset `buffer_start` triggers the reassignment to `(s_start, s_end)`. -/
def flushBE (bufStart : Option ℚ) (pstart sEnd : ℚ) : ℚ × ℚ :=
  match bufStart, some sEnd with
  | some b, some e => (b, e)
  | _, _ => (pstart, sEnd)

/-- Lines 128-156: consume one sentence piece.  Sets `buffer_start` when
the buffer is empty, appends the text, bumps the accumulated length by
`len + 1`, records `last_end`, and flushes when the piece ends a sentence
or the accumulated length reaches `max_chars`.  `flushBE` is the defensive
branch of lines 142-144. -/
def processPiece (maxChars : ℕ) (st : MState) (p : Piece) : MState :=
  let sEnd := p.start + p.duration
  let bufStart := if st.bufTexts.isEmpty then some p.start else st.bufStart
  let bufTexts := st.bufTexts ++ [p.text]
  let bufLen := st.bufLen + p.text.length + 1
  if isSentenceEnd p.text || decide (maxChars ≤ bufLen) then
    let be : ℚ × ℚ := flushBE bufStart p.start sEnd
    { merged := st.merged ++ [⟨stripChars (joinSpace bufTexts), be.1, round3 (be.2 - be.1)⟩],
      bufTexts := [], bufStart := none, bufLen := 0, lastEnd := none }
  else
    { merged := st.merged, bufTexts := bufTexts, bufStart := bufStart,
      bufLen := bufLen, lastEnd := some sEnd }

/-- Lines 101-156: process one raw fragment — skip blank text (line 103),
skip when splitting yields no sentences (line 112), otherwise feed the
interpolated pieces through the buffer. -/
def processFragment (maxChars : ℕ) (st : MState) (f : RawFragment) : MState :=
  if (stripChars f.text).isEmpty then st
  else if (splitSentences (stripChars f.text)).isEmpty then st
  else (fragmentPieces f).foldl (processPiece maxChars) st

/-- Model of `merge_segments_to_sentences(segments, max_chars)` (lines 86-168):
the main loop followed by the end-of-input flush of lines 158-166, which
fires only when `buffer_texts` is non-empty and both `buffer_start` and
`last_end` are set. -/
def merge_segments_to_sentences (segs : List RawFragment) (maxChars : ℕ) : List SentenceSegment :=
  let st := segs.foldl (processFragment maxChars) initState
  match st.bufTexts, st.bufStart, st.lastEnd with
  | t :: ts, some b, some e =>
    st.merged ++ [⟨stripChars (joinSpace (t :: ts)), b, round3 (e - b)⟩]
  | _, _, _ => st.merged

/-- Variant of `processPiece` that omits the defensive reassignment of
lines 142-144: where `processPiece` falls back to `(p.start, sEnd)` when
`buffer_start` is unset, this variant produces a sentinel start
`p.start + 1` instead.  Agreement of the two functions on a state proves
the defensive branch is not taken there. -/
def processPieceSafe (maxChars : ℕ) (st : MState) (p : Piece) : MState :=
  let sEnd := p.start + p.duration
  let bufStart := if st.bufTexts.isEmpty then some p.start else st.bufStart
  let bufTexts := st.bufTexts ++ [p.text]
  let bufLen := st.bufLen + p.text.length + 1
  if isSentenceEnd p.text || decide (maxChars ≤ bufLen) then
    let be : ℚ × ℚ :=
      match bufStart, some sEnd with
      | some b, some e => (b, e)
      | _, _ => (p.start + 1, sEnd)
    { merged := st.merged ++ [⟨stripChars (joinSpace bufTexts), be.1, round3 (be.2 - be.1)⟩],
      bufTexts := [], bufStart := none, bufLen := 0, lastEnd := none }
  else
    { merged := st.merged, bufTexts := bufTexts, bufStart := bufStart,
      bufLen := bufLen, lastEnd := some sEnd }


/-- Decides that the pieces' time spans, laid end to end, run exactly from
`lo` to `hi`: the first piece starts at `lo`, each later piece starts where
the previous one ends, and the last piece ends at `hi`. -/
def contiguousFromB : List Piece → ℚ → ℚ → Bool
  | [], lo, hi => decide (lo = hi)
  | p :: ps, lo, hi => decide (p.start = lo) && contiguousFromB ps (lo + p.duration) hi

/-- The word (maximal whitespace-free run) accumulator: emits the pending
reversed word, if any. -/
def flushW (cur : List Char) : List (List Char) :=
  if cur.isEmpty then [] else [cur.reverse]

/-- Accumulator-passing scan computing the maximal whitespace-free runs of
a character list; `cur` is the current word, reversed. -/
def wordsAux : List Char → List Char → List (List Char)
  | [], cur => flushW cur
  | c :: rest, cur =>
    if isSpace c then flushW cur ++ wordsAux rest []
    else wordsAux rest (c :: cur)

/-- The maximal whitespace-free runs (words) of a character list. -/
def words (l : List Char) : List (List Char) := wordsAux l []

/-- Whitespace normalisation: the words of the text joined by single
spaces.  Two texts have the same `collapse` exactly when they carry the
same words in the same order. -/
def collapse (l : List Char) : List Char := joinSpace (words l)

/-- All words of a list of texts, in order. -/
def wordsJoin (ts : List (List Char)) : List (List Char) := (ts.map words).flatten

/-- Structural buffer invariant: an empty `buffer_texts` goes with unset
`buffer_start`/`last_end` and zero accumulated length, and a non-empty
buffer always has both timestamps set. -/
def BufInv (st : MState) : Prop :=
  (st.bufTexts = [] → st.bufStart = none ∧ st.lastEnd = none ∧ st.bufLen = 0) ∧
  (st.bufTexts ≠ [] → (∃ b, st.bufStart = some b) ∧ (∃ e, st.lastEnd = some e))

/-- Timing invariant of the loop state, relative to a lower bound `lo`
that every future piece start will respect. -/
structure TimeInv (lo : ℚ) (st : MState) : Prop where
  mono : st.merged.Pairwise (fun a b => a.start ≤ b.start)
  durs : ∀ s ∈ st.merged, 0 ≤ s.duration
  mergedLe : ∀ s ∈ st.merged, s.start ≤ lo
  bufLe : ∀ b, st.bufStart = some b → b ≤ lo ∧ ∀ s ∈ st.merged, s.start ≤ b
  bufOrd : ∀ b e, st.bufStart = some b → st.lastEnd = some e → b ≤ e

/-- Fragments are chained when each starts no earlier than `lo` and the
next one starts no earlier than the previous one ends. -/
def FragChain : ℚ → List RawFragment → Prop
  | _, [] => True
  | lo, f :: fs => lo ≤ f.start ∧ FragChain (f.start + f.duration) fs

/-- The running lower bound after consuming the chained fragments. -/
def fragEnd : ℚ → List RawFragment → ℚ
  | lo, [] => lo
  | _, f :: fs => fragEnd (f.start + f.duration) fs

/-- Instrumented loop state: like `MState` but each emitted segment is
paired with the list of pieces that contributed to it, and the buffered
pieces are recorded alongside their texts. -/
structure IState where
  merged : List (SentenceSegment × List Piece)
  bufTexts : List (List Char)
  bufPieces : List Piece
  bufStart : Option ℚ
  bufLen : ℕ
  lastEnd : Option ℚ

/-- Initial instrumented state. -/
def iInit : IState := ⟨[], [], [], none, 0, none⟩

/-- Instrumented version of `processPiece`; identical control flow, but
additionally records the contributing pieces. -/
def iProcessPiece (maxChars : ℕ) (st : IState) (p : Piece) : IState :=
  let sEnd := p.start + p.duration
  let bufStart := if st.bufTexts.isEmpty then some p.start else st.bufStart
  let bufTexts := st.bufTexts ++ [p.text]
  let bufPieces := st.bufPieces ++ [p]
  let bufLen := st.bufLen + p.text.length + 1
  if isSentenceEnd p.text || decide (maxChars ≤ bufLen) then
    let be : ℚ × ℚ := flushBE bufStart p.start sEnd
    { merged := st.merged ++
        [(⟨stripChars (joinSpace bufTexts), be.1, round3 (be.2 - be.1)⟩, bufPieces)],
      bufTexts := [], bufPieces := [], bufStart := none, bufLen := 0, lastEnd := none }
  else
    { merged := st.merged, bufTexts := bufTexts, bufPieces := bufPieces,
      bufStart := bufStart, bufLen := bufLen, lastEnd := some sEnd }

/-- Instrumented version of `processFragment`. -/
def iProcessFragment (maxChars : ℕ) (st : IState) (f : RawFragment) : IState :=
  if (stripChars f.text).isEmpty then st
  else if (splitSentences (stripChars f.text)).isEmpty then st
  else (fragmentPieces f).foldl (iProcessPiece maxChars) st

/-- Instrumented version of `merge_segments_to_sentences`: returns each
output segment together with its contributing pieces. -/
def imerge (segs : List RawFragment) (maxChars : ℕ) : List (SentenceSegment × List Piece) :=
  let st := segs.foldl (iProcessFragment maxChars) iInit
  match st.bufTexts, st.bufStart, st.lastEnd with
  | t :: ts, some b, some e =>
    st.merged ++ [(⟨stripChars (joinSpace (t :: ts)), b, round3 (e - b)⟩, st.bufPieces)]
  | _, _, _ => st.merged

/-- Forgetting the instrumentation. -/
def iProj (st : IState) : MState :=
  ⟨st.merged.map Prod.fst, st.bufTexts, st.bufStart, st.bufLen, st.lastEnd⟩

/-- Text-level loop state: the output texts, buffered texts and the
accumulated length, without any timing. -/
structure TState where
  out : List (List Char)
  buf : List (List Char)
  len : ℕ

/-- Initial text-level state. -/
def tInit : TState := ⟨[], [], 0⟩

/-- Text-level version of `processPiece`: the flush decision of lines
137-140 depends only on the piece text and the accumulated length. -/
def tProcessPiece (maxChars : ℕ) (st : TState) (t : List Char) : TState :=
  let buf := st.buf ++ [t]
  let len := st.len + t.length + 1
  if isSentenceEnd t || decide (maxChars ≤ len) then
    ⟨st.out ++ [stripChars (joinSpace buf)], [], 0⟩
  else ⟨st.out, buf, len⟩

/-- Forgetting the timing of an `MState`. -/
def tProj (st : MState) : TState :=
  ⟨st.merged.map SentenceSegment.text, st.bufTexts, st.bufLen⟩

/-- The apostrophe character (U+0027). -/
def apos : Char := Char.ofNat 39

/-- Scenario C input text `"that's fine."`. -/
def thatsFine : List Char := ("that").data ++ apos :: ("s fine.").data

/-- Scenario C input fragments. -/
def scenarioC : List RawFragment :=
  [⟨("I think").data, 0, 1⟩, ⟨thatsFine, 1, 3 / 2⟩]

/-- Scenario B input fragment list. -/
def scenarioB : List RawFragment :=
  [⟨("Hi there. How are you?").data, 0, 4⟩]

/-- Two fragments with non-decreasing starts and non-negative durations
whose time spans overlap: the first runs from 0 to 2, the second from
1 to 5/4. -/
def scenarioOverlap : List RawFragment :=
  [⟨("A. B").data, 0, 2⟩, ⟨("C.").data, 1, 1 / 4⟩]

/-- A single unterminated fragment (Scenario E shape). -/
def scenarioE : List RawFragment :=
  [⟨("I think").data, 0, 1⟩]

/-- A single all-whitespace fragment. -/
def scenarioBlank : List RawFragment :=
  [⟨("   ").data, 0, 1⟩]

/-- Per-segment timing property of an instrumented output entry: the
segment starts at its first contributing piece, its duration is the
3-decimal rounding of the span to its last contributing piece's end, and
the text is the single-space join of the contributing texts, trimmed. -/
def SegOK (x : SentenceSegment × List Piece) : Prop :=
  ∃ p0 pL, x.2.head? = some p0 ∧ x.2.getLast? = some pL ∧
    x.1.start = p0.start ∧
    x.1.duration = round3 (pL.start + pL.duration - p0.start) ∧
    x.1.text = stripChars (joinSpace (x.2.map Piece.text))

/-- Per-segment length property: the text is shorter than `max_chars` plus
the length of the final contributing piece. -/
def LenOK (mc : ℕ) (x : SentenceSegment × List Piece) : Prop :=
  ∃ pL, x.2.getLast? = some pL ∧ x.1.text.length < mc + pL.text.length

/-- Structural invariant of the instrumented state: the buffered texts are
the texts of the buffered pieces, the accumulated length counts
`len + 1` per buffered text, `buffer_start` is the first buffered piece's
start, `last_end` is the last buffered piece's end, and every emitted
entry satisfies `SegOK`. -/
structure IRunB (st : IState) : Prop where
  texts : st.bufTexts = st.bufPieces.map Piece.text
  len : st.bufLen = (st.bufTexts.map (fun t => t.length + 1)).sum
  hstart : ∀ q, st.bufPieces.head? = some q → st.bufStart = some q.start
  hlast : ∀ q, st.bufPieces.getLast? = some q → st.lastEnd = some (q.start + q.duration)
  ok : ∀ x ∈ st.merged, SegOK x

/-- Length invariant of the instrumented state (needs `1 ≤ mc`): the
accumulated length stays strictly below the threshold between flushes, and
every emitted entry satisfies `LenOK`. -/
structure IRunL (mc : ℕ) (st : IState) : Prop where
  lt : st.bufLen < mc
  ok : ∀ x ∈ st.merged, LenOK mc x

theorem flushBE_some (b pstart sEnd : ℚ) : flushBE (some b) pstart sEnd = (b, sEnd) := rfl

theorem flushBE_none (pstart sEnd : ℚ) : flushBE none pstart sEnd = (pstart, sEnd) := rfl

theorem mem_dropWhile_of_neg {α : Type} {p : α → Bool} {c : α} (hp : p c = false) :
    ∀ {l : List α}, c ∈ l → c ∈ l.dropWhile p := by
  intro l h
  induction l with
  | nil => simp at h
  | cons a l ih =>
    rw [List.dropWhile_cons]
    by_cases ha : p a = true
    · simp only [ha, if_true]
      rcases List.mem_cons.mp h with rfl | h'
      · rw [hp] at ha; exact absurd ha (by simp)
      · exact ih h'
    · simp only [Bool.not_eq_true] at ha
      simp only [ha, Bool.false_eq_true, if_false]
      exact h

theorem mem_stripChars {c : Char} {l : List Char} (hc : c ∈ l) (hs : isSpace c = false) :
    c ∈ stripChars l := by
  unfold stripChars
  have h1 : c ∈ l.dropWhile isSpace := mem_dropWhile_of_neg hs hc
  have h2 : c ∈ (l.dropWhile isSpace).reverse := List.mem_reverse.mpr h1
  exact List.mem_reverse.mpr (mem_dropWhile_of_neg hs h2)

theorem stripChars_has_nonspace {l : List Char} (h : stripChars l ≠ []) :
    ∃ c ∈ stripChars l, isSpace c = false := by
  unfold stripChars at *
  have hm : (l.dropWhile isSpace).reverse.dropWhile isSpace ≠ [] := by
    intro h0
    exact h (by rw [h0]; rfl)
  refine ⟨((l.dropWhile isSpace).reverse.dropWhile isSpace).head hm, ?_, ?_⟩
  · exact List.mem_reverse.mpr (List.head_mem hm)
  · exact List.head_dropWhile_not isSpace _ hm

theorem stripChars_length_le (l : List Char) : (stripChars l).length ≤ l.length := by
  unfold stripChars
  have h1 : ((l.dropWhile isSpace).reverse.dropWhile isSpace).length ≤
      (l.dropWhile isSpace).reverse.length :=
    (List.dropWhile_sublist _).length_le
  have h2 : (l.dropWhile isSpace).length ≤ l.length := (List.dropWhile_sublist _).length_le
  simp only [List.length_reverse] at h1 ⊢
  exact le_trans h1 h2

theorem wordsAux_nil (cur : List Char) : wordsAux [] cur = flushW cur := rfl

theorem wordsAux_space {c : Char} (hc : isSpace c = true) (l cur : List Char) :
    wordsAux (c :: l) cur = flushW cur ++ wordsAux l [] := by
  simp [wordsAux, hc]

theorem wordsAux_nonspace {c : Char} (hc : isSpace c = false) (l cur : List Char) :
    wordsAux (c :: l) cur = wordsAux l (c :: cur) := by
  simp [wordsAux, hc]

theorem wordsAux_append_space {c : Char} (hc : isSpace c = true) :
    ∀ (a b cur : List Char), wordsAux (a ++ c :: b) cur = wordsAux a cur ++ wordsAux b [] := by
  intro a
  induction a with
  | nil => intro b cur; simp [wordsAux_space hc, wordsAux_nil]
  | cons x a ih =>
    intro b cur
    by_cases hx : isSpace x = true
    · simp only [List.cons_append, wordsAux_space hx, ih, List.append_assoc]
    · simp only [Bool.not_eq_true] at hx
      rw [List.cons_append, wordsAux_nonspace hx, wordsAux_nonspace hx, ih]

theorem words_joinSpace : ∀ ts : List (List Char), words (joinSpace ts) = wordsJoin ts
  | [] => rfl
  | [t] => by simp [joinSpace, wordsJoin, words]
  | t :: u :: ts => by
    have hsp : isSpace ' ' = true := rfl
    show words (t ++ ' ' :: joinSpace (u :: ts)) = wordsJoin (t :: u :: ts)
    rw [words, wordsAux_append_space hsp]
    rw [show wordsAux (joinSpace (u :: ts)) [] = words (joinSpace (u :: ts)) from rfl]
    rw [words_joinSpace (u :: ts)]
    simp [wordsJoin, words]

theorem wordsAux_all_space :
    ∀ {l : List Char}, (∀ c ∈ l, isSpace c = true) → ∀ cur, wordsAux l cur = flushW cur := by
  intro l
  induction l with
  | nil => intro _ _; rfl
  | cons a l ih =>
    intro h cur
    have ha := h a (List.mem_cons_self _ _)
    rw [wordsAux_space ha, ih (fun c hc => h c (List.mem_cons_of_mem _ hc)) []]
    simp [flushW]

theorem wordsAux_append_all_space {b : List Char} (hb : ∀ c ∈ b, isSpace c = true) :
    ∀ (a cur : List Char), wordsAux (a ++ b) cur = wordsAux a cur := by
  intro a
  induction a with
  | nil =>
    intro cur
    rw [List.nil_append, wordsAux_all_space hb cur, wordsAux_nil]
  | cons x a ih =>
    intro cur
    by_cases hx : isSpace x = true
    · rw [List.cons_append, wordsAux_space hx, wordsAux_space hx, ih]
    · simp only [Bool.not_eq_true] at hx
      rw [List.cons_append, wordsAux_nonspace hx, wordsAux_nonspace hx, ih]

theorem words_dropWhile_space (l : List Char) : words (l.dropWhile isSpace) = words l := by
  induction l with
  | nil => rfl
  | cons a l ih =>
    rw [List.dropWhile_cons]
    by_cases ha : isSpace a = true
    · simp only [ha, if_true]
      rw [ih]
      simp only [words]
      rw [wordsAux_space ha]
      rfl
    · simp only [Bool.not_eq_true] at ha
      simp [ha]

theorem words_stripChars (l : List Char) : words (stripChars l) = words l := by
  unfold stripChars
  have h1 : words (l.dropWhile isSpace) = words l := words_dropWhile_space l
  have h0 : (l.dropWhile isSpace).reverse =
      (l.dropWhile isSpace).reverse.takeWhile isSpace ++
        (l.dropWhile isSpace).reverse.dropWhile isSpace :=
    (List.takeWhile_append_dropWhile _ _).symm
  have hsplit : l.dropWhile isSpace =
      ((l.dropWhile isSpace).reverse.dropWhile isSpace).reverse ++
        ((l.dropWhile isSpace).reverse.takeWhile isSpace).reverse := by
    conv_lhs => rw [← (l.dropWhile isSpace).reverse_reverse, h0, List.reverse_append]
  have hallsp : ∀ c ∈ ((l.dropWhile isSpace).reverse.takeWhile isSpace).reverse,
      isSpace c = true := by
    intro c hc
    exact List.mem_takeWhile_imp (List.mem_reverse.mp hc)
  calc words (((l.dropWhile isSpace).reverse.dropWhile isSpace).reverse)
      = wordsAux (((l.dropWhile isSpace).reverse.dropWhile isSpace).reverse ++
          ((l.dropWhile isSpace).reverse.takeWhile isSpace).reverse) [] :=
        (wordsAux_append_all_space hallsp _ []).symm
    _ = words (l.dropWhile isSpace) := by rw [← hsplit]; rfl
    _ = words l := h1

theorem pySplit_cons (c : Char) (rest : List Char) (sk pt : Bool) :
    pySplit (c :: rest) sk pt =
      if sk then
        if isSpace c then pySplit rest true false
        else ((c :: (pySplit rest false (isTerm c)).1), (pySplit rest false (isTerm c)).2)
      else if pt && isSpace c then
        ([], (pySplit rest true false).1 :: (pySplit rest true false).2)
      else ((c :: (pySplit rest false (isTerm c)).1), (pySplit rest false (isTerm c)).2) := by
  rfl

theorem pySplit_wordsAux :
    ∀ (l : List Char) (sk pt : Bool) (cur : List Char), (sk = true → cur = []) →
      wordsAux (pySplit l sk pt).1 cur ++ wordsJoin (pySplit l sk pt).2 = wordsAux l cur := by
  intro l
  induction l with
  | nil =>
    intro sk pt cur _
    simp [pySplit, wordsJoin, wordsAux]
  | cons c rest ih =>
    intro sk pt cur hsk
    cases sk with
    | true =>
      have hcur : cur = [] := hsk rfl
      subst hcur
      by_cases hc : isSpace c = true
      · rw [pySplit_cons]
        simp only [if_true, hc]
        rw [ih true false [] (fun _ => rfl), wordsAux_space hc]
        rfl
      · simp only [Bool.not_eq_true] at hc
        rw [pySplit_cons]
        simp only [if_true, hc, Bool.false_eq_true, if_false]
        rw [wordsAux_nonspace hc, wordsAux_nonspace hc,
          ih false (isTerm c) [c] (fun h => by cases h)]
    | false =>
      by_cases hpt : (pt && isSpace c) = true
      · have hc : isSpace c = true := (Bool.and_eq_true ..).mp hpt |>.2
        rw [pySplit_cons]
        simp only [Bool.false_eq_true, if_false, hpt, if_true]
        rw [wordsAux_nil, wordsAux_space hc]
        have hrec := ih true false [] (fun _ => rfl)
        calc flushW cur ++ wordsJoin ((pySplit rest true false).1 :: (pySplit rest true false).2)
            = flushW cur ++ (wordsAux (pySplit rest true false).1 [] ++
                wordsJoin (pySplit rest true false).2) := by
              simp [wordsJoin, words]
          _ = flushW cur ++ wordsAux rest [] := by rw [hrec]
      · rw [pySplit_cons]
        simp only [Bool.false_eq_true, if_false, hpt]
        by_cases hc : isSpace c = true
        · rw [wordsAux_space hc, wordsAux_space hc, List.append_assoc,
            ih false (isTerm c) [] (fun h => by cases h)]
        · simp only [Bool.not_eq_true] at hc
          rw [wordsAux_nonspace hc, wordsAux_nonspace hc,
            ih false (isTerm c) (c :: cur) (fun h => by cases h)]

theorem wordsJoin_pySplitList (l : List Char) : wordsJoin (pySplitList l) = words l := by
  have h := pySplit_wordsAux l false false [] (fun h => by cases h)
  calc wordsJoin (pySplitList l)
      = wordsAux (pySplit l false false).1 [] ++ wordsJoin (pySplit l false false).2 := by
        simp [pySplitList, wordsJoin, words]
    _ = wordsAux l [] := h
    _ = words l := rfl

theorem wordsJoin_filter_strip (P : List (List Char)) :
    wordsJoin ((P.map stripChars).filter (fun s => !s.isEmpty)) = wordsJoin P := by
  induction P with
  | nil => rfl
  | cons p P ih =>
    simp only [List.map_cons, List.filter_cons]
    by_cases hp : (stripChars p).isEmpty = true
    · simp only [hp, Bool.not_true, Bool.false_eq_true, if_false, ih]
      have h0 : stripChars p = [] := List.isEmpty_iff.mp hp
      have hw : words p = [] := by
        rw [← words_stripChars p, h0]; rfl
      simp [wordsJoin, hw]
    · simp only [Bool.not_eq_true] at hp
      simp only [hp, Bool.not_false, if_true]
      simp only [wordsJoin, List.map_cons, List.flatten_cons] at ih ⊢
      rw [words_stripChars, ih]

theorem words_splitSentences (t : List Char) : wordsJoin (splitSentences t) = words t := by
  unfold splitSentences
  rw [wordsJoin_filter_strip, wordsJoin_pySplitList]

theorem pySplit_mem {c : Char} (hc : isSpace c = false) :
    ∀ (l : List Char) (sk pt : Bool), c ∈ l →
      c ∈ (pySplit l sk pt).1 ∨ ∃ p ∈ (pySplit l sk pt).2, c ∈ p := by
  intro l
  induction l with
  | nil => intro sk pt h; simp at h
  | cons a rest ih =>
    intro sk pt h
    rcases List.mem_cons.mp h with rfl | h'
    · rw [pySplit_cons]
      cases sk with
      | true =>
        simp only [if_true, hc, Bool.false_eq_true, if_false]
        exact Or.inl (List.mem_cons_self _ _)
      | false =>
        have : (pt && isSpace c) = false := by simp [hc]
        simp only [Bool.false_eq_true, if_false, this]
        exact Or.inl (List.mem_cons_self _ _)
    · rw [pySplit_cons]
      cases sk with
      | true =>
        by_cases ha : isSpace a = true
        · simp only [if_true, ha]
          exact ih true false h'
        · simp only [Bool.not_eq_true] at ha
          simp only [if_true, ha, Bool.false_eq_true, if_false]
          rcases ih false (isTerm a) h' with h1 | h1
          · exact Or.inl (List.mem_cons_of_mem _ h1)
          · exact Or.inr h1
      | false =>
        by_cases hpa : (pt && isSpace a) = true
        · simp only [Bool.false_eq_true, if_false, hpa, if_true]
          rcases ih true false h' with h1 | ⟨p, hp, hcp⟩
          · exact Or.inr ⟨_, List.mem_cons_self _ _, h1⟩
          · exact Or.inr ⟨p, List.mem_cons_of_mem _ hp, hcp⟩
        · simp only [Bool.false_eq_true, if_false, hpa]
          rcases ih false (isTerm a) h' with h1 | h1
          · exact Or.inl (List.mem_cons_of_mem _ h1)
          · exact Or.inr h1

theorem mem_splitSentences_of {t P : List Char} (hP : P ∈ pySplitList t) {c : Char}
    (hc : c ∈ P) (hs : isSpace c = false) : stripChars P ∈ splitSentences t := by
  unfold splitSentences
  apply List.mem_filter.mpr
  refine ⟨List.mem_map_of_mem _ hP, ?_⟩
  have hmem := mem_stripChars hc hs
  simp only [Bool.not_eq_eq_eq_not, Bool.not_true, Bool.not_eq_true]
  rw [List.isEmpty_eq_false_iff_exists_mem]
  exact ⟨c, hmem⟩

theorem splitSentences_ne_nil {t : List Char} (h : ∃ c ∈ t, isSpace c = false) :
    splitSentences t ≠ [] := by
  obtain ⟨c, hct, hcs⟩ := h
  rcases pySplit_mem hcs t false false hct with h1 | ⟨p, hp, hcp⟩
  · exact List.ne_nil_of_mem
      (mem_splitSentences_of (List.mem_cons_self _ _) h1 hcs)
  · exact List.ne_nil_of_mem
      (mem_splitSentences_of (List.mem_cons_of_mem _ hp) hcp hcs)

theorem buildPieces_map_text (dur tot endT : ℚ) :
    ∀ (ss : List (List Char)) (cursor : ℚ),
      (buildPieces dur tot endT ss cursor).map Piece.text = ss
  | [], _ => rfl
  | [s], cursor => rfl
  | s :: s2 :: rest, cursor => by
    simp only [buildPieces, List.map_cons, List.cons.injEq, true_and]
    exact buildPieces_map_text dur tot endT (s2 :: rest) _

theorem buildPieces_ne_nil (dur tot endT : ℚ) :
    ∀ {ss : List (List Char)} (cursor : ℚ), ss ≠ [] →
      buildPieces dur tot endT ss cursor ≠ []
  | [], _, h => absurd rfl h
  | [s], cursor, _ => by simp [buildPieces]
  | s :: s2 :: rest, cursor, _ => by simp [buildPieces]

theorem buildPieces_contiguous (dur tot endT : ℚ) :
    ∀ (ss : List (List Char)) (cursor : ℚ), ss ≠ [] →
      contiguousFromB (buildPieces dur tot endT ss cursor) cursor endT = true
  | [], _, h => absurd rfl h
  | [s], cursor, _ => by
    simp only [buildPieces, contiguousFromB, Bool.and_eq_true, decide_eq_true_eq]
    refine ⟨trivial, ?_⟩
    ring
  | s :: s2 :: rest, cursor, _ => by
    simp only [buildPieces, contiguousFromB, Bool.and_eq_true, decide_eq_true_eq]
    refine ⟨trivial, ?_⟩
    exact buildPieces_contiguous dur tot endT (s2 :: rest) _ (by simp)

theorem fragmentPieces_map_text (f : RawFragment) :
    (fragmentPieces f).map Piece.text = splitSentences (stripChars f.text) :=
  buildPieces_map_text _ _ _ _ _

/-- C1: for every RawFragment with non-empty trimmed text, the intra-fragment
splitter produces a non-empty list of SentencePieces whose time spans, laid
end to end in order, exactly run from `fragment.start` to
`fragment.start + fragment.duration`: the first piece starts at
`fragment.start`, each next piece starts where the previous one ends, and
the last piece ends exactly at `fragment.start + fragment.duration`. -/
theorem C1_intra_fragment_partition (f : RawFragment) (h : stripChars f.text ≠ []) :
    fragmentPieces f ≠ [] ∧
      contiguousFromB (fragmentPieces f) f.start (f.start + f.duration) = true := by
  have hss : splitSentences (stripChars f.text) ≠ [] :=
    splitSentences_ne_nil (stripChars_has_nonspace h)
  unfold fragmentPieces
  exact ⟨buildPieces_ne_nil _ _ _ _ hss, buildPieces_contiguous _ _ _ _ _ hss⟩

set_option maxRecDepth 100000 in
/-- Witness for C1 at the Scenario B fragment. -/
theorem C1_intra_fragment_partition_witness :
    stripChars (("Hi there. How are you?").data) ≠ [] ∧
      (fragmentPieces ⟨("Hi there. How are you?").data, 0, 4⟩ ≠ [] ∧
        contiguousFromB (fragmentPieces ⟨("Hi there. How are you?").data, 0, 4⟩)
          ((⟨("Hi there. How are you?").data, 0, 4⟩ : RawFragment)).start
          ((0 : ℚ) + 4) = true) :=
  ⟨by with_unfolding_all decide,
   C1_intra_fragment_partition ⟨("Hi there. How are you?").data, 0, 4⟩
     (by with_unfolding_all decide)⟩

/-- C5: the divisor `total_len` of the proportional interpolation is
positive whenever the splitter runs (the sentence list is non-empty), and
it falls back to the substring count whenever the length sum is zero, so
the division in the splitter of `merge_segments_to_sentences` never has a
zero divisor. -/
theorem C5_total_len_positive (t : List Char) (h : splitSentences t ≠ []) :
    0 < totalLen (splitSentences t) ∧
      (((splitSentences t).map List.length).sum = 0 →
        totalLen (splitSentences t) = (splitSentences t).length) := by
  constructor
  · unfold totalLen
    by_cases h0 : ((splitSentences t).map List.length).sum = 0
    · simp only [h0, if_true]
      exact List.length_pos.mpr h
    · simp only [h0, if_false]
      exact Nat.pos_of_ne_zero h0
  · intro h0
    unfold totalLen
    simp [h0]

set_option maxRecDepth 100000 in
/-- Witness for C5 at the Scenario B fragment text. -/
theorem C5_total_len_positive_witness :
    splitSentences (("Hi there. How are you?").data) ≠ [] ∧
      0 < totalLen (splitSentences (("Hi there. How are you?").data)) :=
  ⟨by with_unfolding_all decide,
   (C5_total_len_positive _ (by with_unfolding_all decide)).1⟩

set_option maxRecDepth 100000 in
/-- C8: on the Scenario C input the two fragments merge into exactly one
SentenceSegment with text "I think that's fine.", start 0 and duration 2.5:
the buffer is carried across the fragment boundary and flushed only at the
second fragment's terminator. -/
theorem C8_scenario_c :
    merge_segments_to_sentences scenarioC 120 =
      [⟨("I think ").data ++ thatsFine, 0, 5 / 2⟩] := by
  with_unfolding_all decide

set_option maxRecDepth 100000 in
/-- C3 counterexample: on the Scenario B input the second (last) output
segment has start 12/7 and start + duration = 14001/3500 ≈ 4.000286 — not
exactly 4 and not the end of its last piece — because the emitted duration
is rounded to 3 decimal places. -/
theorem C3_counterexample :
    merge_segments_to_sentences scenarioB 120 =
      [⟨("Hi there.").data, 0, 857 / 500⟩, ⟨("How are you?").data, 12 / 7, 1143 / 500⟩] ∧
      (12 / 7 : ℚ) + 1143 / 500 ≠ 4 :=
  ⟨by with_unfolding_all decide, by with_unfolding_all decide⟩

set_option maxRecDepth 100000 in
/-- C6 counterexample: `scenarioOverlap` satisfies the claim's stated
precondition (non-decreasing fragment starts; durations are non-negative),
yet the last output segment has duration −83/1000 < 0, because the
fragments overlap in time and the buffer spans the overlap backwards. -/
theorem C6_counterexample :
    (scenarioOverlap.map RawFragment.start = [0, 1] ∧
        ∀ f ∈ scenarioOverlap, 0 ≤ f.duration) ∧
      merge_segments_to_sentences scenarioOverlap 120 =
        [⟨("A.").data, 0, 1333 / 1000⟩, ⟨("B C.").data, 4 / 3, -(83 / 1000)⟩] ∧
      ¬ (0 : ℚ) ≤ -(83 / 1000) :=
  ⟨⟨by with_unfolding_all decide, by with_unfolding_all decide⟩,
   by with_unfolding_all decide, by with_unfolding_all decide⟩

set_option maxRecDepth 100000 in
/-- C2 counterexample: on the Scenario C input, the collapsed single-space
join of the output texts has a space between "think" and the following
word, while the collapsed literal (separator-free) concatenation of the
non-empty input texts does not; so the claim read with literal
concatenation on the input side is false. -/
theorem C2_counterexample :
    collapse (joinSpace ((merge_segments_to_sentences scenarioC 120).map
        SentenceSegment.text)) = ("I think ").data ++ thatsFine ∧
      collapse (((scenarioC.filter (fun f => !f.text.isEmpty)).map
        RawFragment.text).flatten) = ("I thinkthat").data ++ apos :: ("s fine.").data ∧
      ("I think ").data ++ thatsFine ≠ ("I thinkthat").data ++ apos :: ("s fine.").data :=
  ⟨by with_unfolding_all decide, by with_unfolding_all decide,
   by with_unfolding_all decide⟩

theorem roundHalfEven_sub_le (q : ℚ) : |((roundHalfEven q : ℤ) : ℚ) - q| ≤ 1 / 2 := by
  unfold roundHalfEven
  have hf : ((⌊q⌋ : ℤ) : ℚ) ≤ q := Int.floor_le q
  have hf1 : q < (⌊q⌋ : ℚ) + 1 := Int.lt_floor_add_one q
  split_ifs with h1 h2 h3
  · rw [abs_le]
    constructor <;> linarith
  · push_cast
    rw [abs_le]
    constructor <;> linarith
  · have hq : q - (⌊q⌋ : ℚ) = 1 / 2 := le_antisymm (not_lt.mp h2) (not_lt.mp h1)
    rw [abs_le]
    constructor <;> linarith
  · have hq : q - (⌊q⌋ : ℚ) = 1 / 2 := le_antisymm (not_lt.mp h2) (not_lt.mp h1)
    push_cast
    rw [abs_le]
    constructor <;> linarith

theorem roundHalfEven_nonneg {q : ℚ} (h : 0 ≤ q) : 0 ≤ roundHalfEven q := by
  unfold roundHalfEven
  have h0 : (0 : ℤ) ≤ ⌊q⌋ := Int.floor_nonneg.mpr h
  split_ifs <;> omega

theorem round3_sub_le (q : ℚ) : |round3 q - q| ≤ 1 / 2000 := by
  unfold round3
  have h := roundHalfEven_sub_le (q * 1000)
  rw [abs_le] at h ⊢
  obtain ⟨h1, h2⟩ := h
  constructor <;> [linarith; linarith]

theorem round3_nonneg {q : ℚ} (h : 0 ≤ q) : 0 ≤ round3 q := by
  unfold round3
  have h0 : (0 : ℤ) ≤ roundHalfEven (q * 1000) := roundHalfEven_nonneg (by positivity)
  have h1 : (0 : ℚ) ≤ ((roundHalfEven (q * 1000) : ℤ) : ℚ) := by exact_mod_cast h0
  positivity

theorem bufInv_init : BufInv initState :=
  ⟨fun _ => ⟨rfl, rfl, rfl⟩, fun h => absurd rfl h⟩

theorem bufInv_processPiece (mc : ℕ) (st : MState) (p : Piece) (h : BufInv st) :
    BufInv (processPiece mc st p) := by
  simp only [processPiece]
  by_cases hf : (isSentenceEnd p.text || decide (mc ≤ st.bufLen + p.text.length + 1)) = true
  · rw [if_pos hf]
    exact ⟨fun _ => ⟨rfl, rfl, rfl⟩, fun hne => absurd rfl hne⟩
  · rw [if_neg hf]
    refine ⟨fun h0 => absurd h0 ?_, fun _ => ⟨?_, ⟨p.start + p.duration, rfl⟩⟩⟩
    · show st.bufTexts ++ [p.text] ≠ []
      simp
    · show ∃ b, (if st.bufTexts.isEmpty then some p.start else st.bufStart) = some b
      by_cases he : st.bufTexts.isEmpty = true
      · exact ⟨p.start, by rw [if_pos he]⟩
      · have hne : st.bufTexts ≠ [] := fun h0 => he (by rw [h0]; rfl)
        obtain ⟨b, hb⟩ := (h.2 hne).1
        exact ⟨b, by rw [if_neg (by simp [he]), hb]⟩

theorem bufInv_foldPieces (mc : ℕ) : ∀ (ps : List Piece) (st : MState), BufInv st →
    BufInv (ps.foldl (processPiece mc) st)
  | [], _, h => h
  | p :: ps, st, h => bufInv_foldPieces mc ps _ (bufInv_processPiece mc st p h)

theorem bufInv_processFragment (mc : ℕ) (st : MState) (f : RawFragment) (h : BufInv st) :
    BufInv (processFragment mc st f) := by
  unfold processFragment
  split
  · exact h
  · split
    · exact h
    · exact bufInv_foldPieces mc _ st h

theorem bufInv_run (mc : ℕ) : ∀ (segs : List RawFragment) (st : MState), BufInv st →
    BufInv (segs.foldl (processFragment mc) st)
  | [], _, h => h
  | f :: fs, st, h => bufInv_run mc fs _ (bufInv_processFragment mc st f h)

theorem processPiece_eq_safe (mc : ℕ) (st : MState) (p : Piece) (h : BufInv st) :
    processPiece mc st p = processPieceSafe mc st p := by
  simp only [processPiece, processPieceSafe]
  by_cases he : st.bufTexts.isEmpty = true
  · rw [if_pos he]
    rfl
  · have hne : st.bufTexts ≠ [] := fun h0 => he (by rw [h0]; rfl)
    obtain ⟨b, hb⟩ := (h.2 hne).1
    rw [if_neg (by simp [he] : ¬ st.bufTexts.isEmpty = true), hb]
    rfl

/-- C10: every loop state reachable by folding fragments from the initial
state (and then any further pieces) keeps the buffer fields consistent —
an empty `buffer_texts` goes with unset `buffer_start`/`last_end` and zero
length, a non-empty one has both set — and on such a state `processPiece`
agrees with `processPieceSafe`, the variant without the defensive
reassignment of lines 142-144: the defensive branch is unreachable, and
every flush computes its segment from a fully populated buffer. -/
theorem C10_buffer_populated (mc : ℕ) (segs : List RawFragment) (ps : List Piece) :
    BufInv (ps.foldl (processPiece mc) (segs.foldl (processFragment mc) initState)) ∧
      ∀ p, processPiece mc
          (ps.foldl (processPiece mc) (segs.foldl (processFragment mc) initState)) p =
        processPieceSafe mc
          (ps.foldl (processPiece mc) (segs.foldl (processFragment mc) initState)) p := by
  have hinv := bufInv_foldPieces mc ps _ (bufInv_run mc segs initState bufInv_init)
  exact ⟨hinv, fun p => processPiece_eq_safe mc _ p hinv⟩

/-- C7: whenever the buffer is non-empty after the main loop, both its
timestamps are set and the output of `merge_segments_to_sentences` is the
merged list followed by exactly one final segment built like a normal
flush: text is the buffered texts joined by single spaces then trimmed,
start is the buffer start, duration is `round3 (last_end - buffer_start)`.
The buffer is never silently discarded at end of input. -/
theorem C7_end_flush (segs : List RawFragment) (mc : ℕ)
    (h : (segs.foldl (processFragment mc) initState).bufTexts ≠ []) :
    ∃ b e, (segs.foldl (processFragment mc) initState).bufStart = some b ∧
      (segs.foldl (processFragment mc) initState).lastEnd = some e ∧
      merge_segments_to_sentences segs mc =
        (segs.foldl (processFragment mc) initState).merged ++
          [⟨stripChars (joinSpace (segs.foldl (processFragment mc) initState).bufTexts),
            b, round3 (e - b)⟩] := by
  have hinv := bufInv_run mc segs initState bufInv_init
  obtain ⟨⟨b, hb⟩, ⟨e, he⟩⟩ := hinv.2 h
  refine ⟨b, e, hb, he, ?_⟩
  simp only [merge_segments_to_sentences]
  obtain ⟨t, ts, ht⟩ : ∃ t ts, (segs.foldl (processFragment mc) initState).bufTexts = t :: ts := by
    cases h' : (segs.foldl (processFragment mc) initState).bufTexts with
    | nil => exact absurd h' h
    | cons t ts => exact ⟨t, ts, rfl⟩
  rw [ht, hb, he]

theorem timeInv_mono {lo lo' : ℚ} (h : lo ≤ lo') {st : MState} (ht : TimeInv lo st) :
    TimeInv lo' st := by
  refine ⟨ht.mono, ht.durs, fun s hs => le_trans (ht.mergedLe s hs) h,
    fun b hb => ?_, ht.bufOrd⟩
  obtain ⟨h1, h2⟩ := ht.bufLe b hb
  exact ⟨le_trans h1 h, h2⟩

theorem timeInv_init (lo : ℚ) : TimeInv lo initState :=
  ⟨List.Pairwise.nil, fun s hs => absurd hs (by simp [initState]),
   fun s hs => absurd hs (by simp [initState]),
   fun b hb => by simp [initState] at hb,
   fun b e hb _ => by simp [initState] at hb⟩

theorem timeInv_step {lo : ℚ} {st : MState} (ht : TimeInv lo st) {p : Piece}
    (hlo : lo ≤ p.start) (hd : 0 ≤ p.duration) (mc : ℕ) :
    TimeInv (p.start + p.duration) (processPiece mc st p) := by
  have hps : ∀ s ∈ st.merged, s.start ≤ p.start := fun s hs =>
    le_trans (ht.mergedLe s hs) hlo
  simp only [processPiece]
  by_cases hf : (isSentenceEnd p.text || decide (mc ≤ st.bufLen + p.text.length + 1)) = true
  · rw [if_pos hf]
    have key : ∀ b e,
        flushBE (if st.bufTexts.isEmpty then some p.start else st.bufStart)
          p.start (p.start + p.duration) = (b, e) →
        e = p.start + p.duration ∧ b ≤ p.start + p.duration ∧
          ∀ s ∈ st.merged, s.start ≤ b := by
      intro b e hfb
      by_cases he : st.bufTexts.isEmpty = true
      · rw [if_pos he, flushBE_some] at hfb
        obtain ⟨rfl, rfl⟩ := (Prod.mk.injEq _ _ _ _).mp hfb
        exact ⟨rfl, by linarith, hps⟩
      · rw [if_neg he] at hfb
        cases hbs : st.bufStart with
        | none =>
          rw [hbs, flushBE_none] at hfb
          obtain ⟨rfl, rfl⟩ := (Prod.mk.injEq _ _ _ _).mp hfb
          exact ⟨rfl, by linarith, hps⟩
        | some b0 =>
          rw [hbs, flushBE_some] at hfb
          obtain ⟨rfl, rfl⟩ := (Prod.mk.injEq _ _ _ _).mp hfb
          obtain ⟨h1, h2⟩ := ht.bufLe b0 hbs
          exact ⟨rfl, by linarith, h2⟩
    obtain ⟨b, e, hbe⟩ : ∃ b e,
        flushBE (if st.bufTexts.isEmpty then some p.start else st.bufStart)
          p.start (p.start + p.duration) = (b, e) := ⟨_, _, rfl⟩
    obtain ⟨he1, he2, he3⟩ := key b e hbe
    rw [hbe]
    subst he1
    refine ⟨?_, ?_, ?_, ?_, ?_⟩
    · show List.Pairwise _ (st.merged ++ [_])
      rw [List.pairwise_append]
      refine ⟨ht.mono, List.pairwise_singleton _ _, ?_⟩
      intro s hs s' hs'
      rcases List.mem_singleton.mp hs' with rfl
      exact he3 s hs
    · intro s hs
      rcases List.mem_append.mp hs with h1 | h1
      · exact ht.durs s h1
      · rcases List.mem_singleton.mp h1 with rfl
        show (0 : ℚ) ≤ round3 ((b, p.start + p.duration).2 - (b, p.start + p.duration).1)
        apply round3_nonneg
        show (0 : ℚ) ≤ p.start + p.duration - b
        linarith
    · intro s hs
      rcases List.mem_append.mp hs with h1 | h1
      · exact le_trans (ht.mergedLe s h1) (by linarith)
      · rcases List.mem_singleton.mp h1 with rfl
        exact he2
    · intro b1 hb1
      exact absurd hb1 (by simp)
    · intro b1 e1 hb1 _
      exact absurd hb1 (by simp)
  · rw [if_neg hf]
    refine ⟨ht.mono, ht.durs, fun s hs => le_trans (ht.mergedLe s hs) (by linarith),
      ?_, ?_⟩
    · intro b hb
      have hb' : (if st.bufTexts.isEmpty then some p.start else st.bufStart) = some b := hb
      by_cases he : st.bufTexts.isEmpty = true
      · rw [if_pos he] at hb'
        cases hb'
        exact ⟨by linarith, hps⟩
      · rw [if_neg he] at hb'
        obtain ⟨h1, h2⟩ := ht.bufLe b hb'
        exact ⟨by linarith, h2⟩
    · intro b e hb heq
      have hb' : (if st.bufTexts.isEmpty then some p.start else st.bufStart) = some b := hb
      have he' : (some (p.start + p.duration) : Option ℚ) = some e := heq
      cases he'
      by_cases he : st.bufTexts.isEmpty = true
      · rw [if_pos he] at hb'
        cases hb'
        linarith
      · rw [if_neg he] at hb'
        obtain ⟨h1, _⟩ := ht.bufLe b hb'
        linarith

theorem totalLen_pos {ss : List (List Char)} (h : ss ≠ []) : 0 < totalLen ss := by
  unfold totalLen
  by_cases h0 : (ss.map List.length).sum = 0
  · simp only [h0, if_true]
    exact List.length_pos.mpr h
  · simp only [h0, if_false]
    exact Nat.pos_of_ne_zero h0

theorem sum_le_totalLen (ss : List (List Char)) : (ss.map List.length).sum ≤ totalLen ss := by
  unfold totalLen
  by_cases h0 : (ss.map List.length).sum = 0
  · simp [h0]
  · simp [h0]

theorem buildPieces_durs {dur tot : ℚ} (hdur : 0 ≤ dur) (htot : 0 < tot) (endT : ℚ) :
    ∀ (ss : List (List Char)) (cursor : ℚ),
      dur * (((ss.map List.length).sum : ℕ) : ℚ) / tot ≤ endT - cursor →
      ∀ p ∈ buildPieces dur tot endT ss cursor, 0 ≤ p.duration
  | [], _, _, _, hp => absurd hp (by simp [buildPieces])
  | [s], cursor, hbound, p, hp => by
    obtain rfl : p = ⟨s, cursor, endT - cursor⟩ := by simpa [buildPieces] using hp
    show (0 : ℚ) ≤ endT - cursor
    have h0 : (0 : ℚ) ≤ dur * (((([s].map List.length).sum : ℕ)) : ℚ) / tot := by
      apply div_nonneg _ htot.le
      apply mul_nonneg hdur
      positivity
    linarith
  | s :: s2 :: rest, cursor, hbound, p, hp => by
    have hsplit : dur * ((((s :: s2 :: rest).map List.length).sum : ℕ) : ℚ) / tot =
        dur * ((s.length : ℕ) : ℚ) / tot +
          dur * ((((s2 :: rest).map List.length).sum : ℕ) : ℚ) / tot := by
      simp only [List.map_cons, List.sum_cons]
      push_cast
      ring
    have hd0 : (0 : ℚ) ≤ dur * ((s.length : ℕ) : ℚ) / tot := by
      apply div_nonneg _ htot.le
      apply mul_nonneg hdur
      positivity
    have htail : (0 : ℚ) ≤ dur * ((((s2 :: rest).map List.length).sum : ℕ) : ℚ) / tot := by
      apply div_nonneg _ htot.le
      apply mul_nonneg hdur
      positivity
    rcases List.mem_cons.mp hp with rfl | hp'
    · show (0 : ℚ) ≤ dur * ((s.length : ℚ) / tot)
      rw [← mul_div_assoc]
      exact hd0
    · apply buildPieces_durs hdur htot endT (s2 :: rest)
        (cursor + dur * ((s.length : ℚ) / tot)) _ p hp'
      rw [← mul_div_assoc] at *
      linarith [hsplit, hbound]

theorem timeInv_foldPieces (mc : ℕ) : ∀ (ps : List Piece) (st : MState) (lo hi : ℚ),
    TimeInv lo st → contiguousFromB ps lo hi = true → (∀ p ∈ ps, 0 ≤ p.duration) →
    TimeInv hi (ps.foldl (processPiece mc) st) := by
  intro ps
  induction ps with
  | nil =>
    intro st lo hi ht hc _
    have h0 : lo = hi := by simpa [contiguousFromB] using hc
    subst h0
    exact ht
  | cons p ps ih =>
    intro st lo hi ht hc hd
    simp only [contiguousFromB, Bool.and_eq_true, decide_eq_true_eq] at hc
    obtain ⟨hstart, hrest⟩ := hc
    have hplo : lo ≤ p.start := le_of_eq hstart.symm
    have hstep := timeInv_step ht hplo (hd p (List.mem_cons_self _ _)) mc
    rw [List.foldl_cons]
    have hcont : contiguousFromB ps (p.start + p.duration) hi = true := by
      rw [hstart]
      exact hrest
    exact ih _ _ _ hstep hcont (fun q hq => hd q (List.mem_cons_of_mem _ hq))

theorem timeInv_processFragment (mc : ℕ) {lo : ℚ} {st : MState} (ht : TimeInv lo st)
    {f : RawFragment} (hlo : lo ≤ f.start) (hd : 0 ≤ f.duration) :
    TimeInv (f.start + f.duration) (processFragment mc st f) := by
  have hmono : TimeInv (f.start + f.duration) st := timeInv_mono (by linarith) ht
  unfold processFragment
  split
  · exact hmono
  · split
    · exact hmono
    · rename_i h1 h2
      have hss : splitSentences (stripChars f.text) ≠ [] := fun h0 => by simp [h0] at h2
      have htotN := totalLen_pos hss
      have htot : (0 : ℚ) < (totalLen (splitSentences (stripChars f.text)) : ℚ) := by
        exact_mod_cast htotN
      have hcont := buildPieces_contiguous f.duration
        (totalLen (splitSentences (stripChars f.text)) : ℚ) (f.start + f.duration) _ f.start hss
      have hsum : ((((splitSentences (stripChars f.text)).map List.length).sum : ℕ) : ℚ) ≤
          (totalLen (splitSentences (stripChars f.text)) : ℚ) := by
        exact_mod_cast sum_le_totalLen _
      have hbound : f.duration *
            ((((splitSentences (stripChars f.text)).map List.length).sum : ℕ) : ℚ) /
            (totalLen (splitSentences (stripChars f.text)) : ℚ) ≤
          (f.start + f.duration) - f.start := by
        have h2' : f.duration *
              ((((splitSentences (stripChars f.text)).map List.length).sum : ℕ) : ℚ) ≤
            f.duration * (totalLen (splitSentences (stripChars f.text)) : ℚ) :=
          mul_le_mul_of_nonneg_left hsum hd
        rw [div_le_iff₀ htot]
        ring_nf
        ring_nf at h2'
        linarith
      have hdurs := buildPieces_durs hd htot (f.start + f.duration) _ f.start hbound
      exact timeInv_foldPieces mc _ st f.start (f.start + f.duration)
        (timeInv_mono hlo ht) hcont hdurs

theorem timeInv_run (mc : ℕ) : ∀ (segs : List RawFragment) (st : MState) (lo : ℚ),
    TimeInv lo st → FragChain lo segs → (∀ f ∈ segs, 0 ≤ f.duration) →
    TimeInv (fragEnd lo segs) (segs.foldl (processFragment mc) st)
  | [], _, _, ht, _, _ => ht
  | f :: fs, st, lo, ht, hc, hd => by
    obtain ⟨h1, h2⟩ := hc
    rw [List.foldl_cons]
    show TimeInv (fragEnd (f.start + f.duration) fs) _
    exact timeInv_run mc fs _ _
      (timeInv_processFragment mc ht h1 (hd f (List.mem_cons_self _ _))) h2
      (fun g hg => hd g (List.mem_cons_of_mem _ hg))

theorem fragChain_of_chain : ∀ (segs : List RawFragment) (lo : ℚ),
    List.Chain' (fun f g => f.start + f.duration ≤ g.start) segs →
    (∀ f, segs.head? = some f → lo ≤ f.start) → FragChain lo segs
  | [], _, _, _ => trivial
  | f :: fs, lo, hc, hh => by
    refine ⟨hh f rfl, ?_⟩
    apply fragChain_of_chain fs _ hc.tail
    intro g hg
    cases fs with
    | nil => simp at hg
    | cons g0 gs =>
      obtain rfl : g0 = g := by simpa using hg
      exact (List.chain'_cons.mp hc).1

/-- C6 amended: when the fragments are non-overlapping — each fragment ends
no later than the next one starts (which also forces non-decreasing starts,
given non-negative durations) — the output of
`merge_segments_to_sentences` has non-decreasing segment starts and every
segment duration is non-negative.  (The original claim assumed only
non-decreasing starts; `C6_counterexample` shows that is not enough.) -/
theorem C6_monotone_amended (segs : List RawFragment) (mc : ℕ)
    (hd : ∀ f ∈ segs, 0 ≤ f.duration)
    (hc : List.Chain' (fun f g => f.start + f.duration ≤ g.start) segs) :
    List.Chain' (fun a b => a.start ≤ b.start) (merge_segments_to_sentences segs mc) ∧
      ∀ s ∈ merge_segments_to_sentences segs mc, 0 ≤ s.duration := by
  have hchain : FragChain (segs.head?.elim 0 RawFragment.start) segs :=
    fragChain_of_chain segs _ hc (fun f hf => by simp [hf])
  have hT := timeInv_run mc segs initState _ (timeInv_init _) hchain hd
  simp only [merge_segments_to_sentences]
  cases hbt : (segs.foldl (processFragment mc) initState).bufTexts with
  | nil =>
    simp only [hbt]
    exact ⟨hT.mono.chain', hT.durs⟩
  | cons t ts =>
    have hInv := bufInv_run mc segs initState bufInv_init
    obtain ⟨⟨b, hb⟩, ⟨e, he⟩⟩ := hInv.2 (by rw [hbt]; simp)
    simp only [hbt, hb, he]
    constructor
    · apply List.Pairwise.chain'
      rw [List.pairwise_append]
      refine ⟨hT.mono, List.pairwise_singleton _ _, ?_⟩
      intro s hs s' hs'
      rcases List.mem_singleton.mp hs' with rfl
      exact (hT.bufLe b hb).2 s hs
    · intro s hs
      rcases List.mem_append.mp hs with h1 | h1
      · exact hT.durs s h1
      · rcases List.mem_singleton.mp h1 with rfl
        show (0 : ℚ) ≤ round3 (e - b)
        have hbe : b ≤ e := hT.bufOrd b e hb he
        apply round3_nonneg
        linarith

set_option maxRecDepth 100000 in
/-- Witness for the amended C6 at the Scenario C input. -/
theorem C6_monotone_amended_witness :
    ((∀ f ∈ scenarioC, 0 ≤ f.duration) ∧
        List.Chain' (fun f g => f.start + f.duration ≤ g.start) scenarioC) ∧
      (List.Chain' (fun a b => a.start ≤ b.start)
          (merge_segments_to_sentences scenarioC 120) ∧
        ∀ s ∈ merge_segments_to_sentences scenarioC 120, 0 ≤ s.duration) :=
  ⟨⟨by with_unfolding_all decide,
    List.chain'_cons.mpr ⟨by norm_num, List.chain'_singleton _⟩⟩,
   C6_monotone_amended scenarioC 120 (by with_unfolding_all decide)
     (List.chain'_cons.mpr ⟨by norm_num, List.chain'_singleton _⟩)⟩

set_option maxRecDepth 100000 in
/-- Witness for C7 at the Scenario E input (one unterminated fragment). -/
theorem C7_end_flush_witness :
    (scenarioE.foldl (processFragment 120) initState).bufTexts ≠ [] ∧
      ∃ b e, (scenarioE.foldl (processFragment 120) initState).bufStart = some b ∧
        (scenarioE.foldl (processFragment 120) initState).lastEnd = some e ∧
        merge_segments_to_sentences scenarioE 120 =
          (scenarioE.foldl (processFragment 120) initState).merged ++
            [⟨stripChars (joinSpace (scenarioE.foldl (processFragment 120) initState).bufTexts),
              b, round3 (e - b)⟩] :=
  ⟨by with_unfolding_all decide, C7_end_flush scenarioE 120 (by with_unfolding_all decide)⟩

theorem iProj_processPiece (mc : ℕ) (st : IState) (p : Piece) :
    iProj (iProcessPiece mc st p) = processPiece mc (iProj st) p := by
  simp only [iProcessPiece, processPiece, iProj]
  by_cases hf : (isSentenceEnd p.text || decide (mc ≤ st.bufLen + p.text.length + 1)) = true
  · rw [if_pos hf, if_pos hf]
    simp
  · rw [if_neg hf, if_neg hf]

theorem iProj_foldPieces (mc : ℕ) : ∀ (ps : List Piece) (st : IState),
    iProj (ps.foldl (iProcessPiece mc) st) = ps.foldl (processPiece mc) (iProj st)
  | [], _ => rfl
  | p :: ps, st => by
    rw [List.foldl_cons, List.foldl_cons, iProj_foldPieces mc ps _, iProj_processPiece]

theorem iProj_processFragment (mc : ℕ) (st : IState) (f : RawFragment) :
    iProj (iProcessFragment mc st f) = processFragment mc (iProj st) f := by
  simp only [iProcessFragment, processFragment]
  split
  · rfl
  · split
    · rfl
    · exact iProj_foldPieces mc _ st

theorem iProj_run (mc : ℕ) : ∀ (segs : List RawFragment) (st : IState),
    iProj (segs.foldl (iProcessFragment mc) st) = segs.foldl (processFragment mc) (iProj st)
  | [], _ => rfl
  | f :: fs, st => by
    rw [List.foldl_cons, List.foldl_cons, iProj_run mc fs _, iProj_processFragment]

theorem imerge_map_fst (segs : List RawFragment) (mc : ℕ) :
    (imerge segs mc).map Prod.fst = merge_segments_to_sentences segs mc := by
  have hrun : iProj (segs.foldl (iProcessFragment mc) iInit) =
      segs.foldl (processFragment mc) initState := iProj_run mc segs iInit
  simp only [imerge, merge_segments_to_sentences]
  rw [← hrun]
  simp only [iProj]
  cases hbt : (segs.foldl (iProcessFragment mc) iInit).bufTexts with
  | nil => rfl
  | cons t ts =>
    cases hbs : (segs.foldl (iProcessFragment mc) iInit).bufStart with
    | none => rfl
    | some b =>
      cases hle : (segs.foldl (iProcessFragment mc) iInit).lastEnd with
      | none => rfl
      | some e => simp

theorem joinSpace_length : ∀ (ts : List (List Char)), ts ≠ [] →
    (joinSpace ts).length + 1 = (ts.map (fun t => t.length + 1)).sum
  | [], h => absurd rfl h
  | [t], _ => by simp [joinSpace]
  | t :: u :: ts, _ => by
    have ih := joinSpace_length (u :: ts) (by simp)
    simp only [joinSpace, List.map_cons, List.sum_cons, List.length_append,
      List.length_cons] at ih ⊢
    omega

theorem iRunB_init : IRunB iInit :=
  ⟨rfl, rfl, fun q hq => by simp [iInit] at hq, fun q hq => by simp [iInit] at hq,
   fun x hx => absurd hx (by simp [iInit])⟩

theorem iRunB_step (mc : ℕ) {st : IState} (h : IRunB st) (p : Piece) :
    IRunB (iProcessPiece mc st p) := by
  have hD : (st.bufPieces ++ [p]).map Piece.text = st.bufTexts ++ [p.text] := by
    rw [List.map_append, h.texts]
    rfl
  simp only [iProcessPiece]
  by_cases hf : (isSentenceEnd p.text || decide (mc ≤ st.bufLen + p.text.length + 1)) = true
  · rw [if_pos hf]
    refine ⟨rfl, rfl, ?_, ?_, ?_⟩
    · intro q hq
      simp at hq
    · intro q hq
      simp at hq
    · intro x hx
      rcases List.mem_append.mp hx with h1 | h1
      · exact h.ok x h1
      · rcases List.mem_singleton.mp h1 with rfl
        by_cases hp : st.bufPieces = []
        case pos =>
          have he : st.bufTexts.isEmpty = true := by
            rw [h.texts, hp]
            rfl
          refine ⟨p, p, by rw [hp]; rfl, by rw [hp]; rfl, ?_, ?_, ?_⟩
          · show (flushBE (if st.bufTexts.isEmpty then some p.start else st.bufStart)
                p.start (p.start + p.duration)).1 = p.start
            rw [if_pos he, flushBE_some]
          · show round3 ((flushBE (if st.bufTexts.isEmpty then some p.start else st.bufStart)
                  p.start (p.start + p.duration)).2 -
                (flushBE (if st.bufTexts.isEmpty then some p.start else st.bufStart)
                  p.start (p.start + p.duration)).1) =
              round3 (p.start + p.duration - p.start)
            rw [if_pos he, flushBE_some]
          · show stripChars (joinSpace (st.bufTexts ++ [p.text])) =
              stripChars (joinSpace ((st.bufPieces ++ [p]).map Piece.text))
            rw [hD]
        case neg =>
          obtain ⟨q, qs, hqs⟩ := List.exists_cons_of_ne_nil hp
          have hne : st.bufTexts ≠ [] := by
            rw [h.texts, hqs]
            simp
          have he : ¬ st.bufTexts.isEmpty = true := fun h0 => hne (List.isEmpty_iff.mp h0)
          have hbs : st.bufStart = some q.start := h.hstart q (by rw [hqs]; rfl)
          refine ⟨q, p, ?_, ?_, ?_, ?_, ?_⟩
          · rw [hqs]
            rfl
          · exact List.getLast?_concat _
          · show (flushBE (if st.bufTexts.isEmpty then some p.start else st.bufStart)
                p.start (p.start + p.duration)).1 = q.start
            rw [if_neg he, hbs, flushBE_some]
          · show round3 ((flushBE (if st.bufTexts.isEmpty then some p.start else st.bufStart)
                  p.start (p.start + p.duration)).2 -
                (flushBE (if st.bufTexts.isEmpty then some p.start else st.bufStart)
                  p.start (p.start + p.duration)).1) =
              round3 (p.start + p.duration - q.start)
            rw [if_neg he, hbs, flushBE_some]
          · show stripChars (joinSpace (st.bufTexts ++ [p.text])) =
              stripChars (joinSpace ((st.bufPieces ++ [p]).map Piece.text))
            rw [hD]
  · rw [if_neg hf]
    refine ⟨?_, ?_, ?_, ?_, h.ok⟩
    · show st.bufTexts ++ [p.text] = (st.bufPieces ++ [p]).map Piece.text
      rw [hD]
    · show st.bufLen + p.text.length + 1 =
        ((st.bufTexts ++ [p.text]).map (fun t => t.length + 1)).sum
      rw [h.len, List.map_append, List.sum_append]
      simp [Nat.add_assoc]
    · intro q hq
      by_cases hp : st.bufPieces = []
      case pos =>
        have he : st.bufTexts.isEmpty = true := by
          rw [h.texts, hp]
          rfl
        have hq' : q = p := by
          rw [hp] at hq
          exact (by simpa using hq : p = q).symm
        subst hq'
        show (if st.bufTexts.isEmpty then some q.start else st.bufStart) = some q.start
        rw [if_pos he]
      case neg =>
        obtain ⟨q0, qs, hqs⟩ := List.exists_cons_of_ne_nil hp
        have hne : st.bufTexts ≠ [] := by
          rw [h.texts, hqs]
          simp
        have he : ¬ st.bufTexts.isEmpty = true := fun h0 => hne (List.isEmpty_iff.mp h0)
        have hq' : q = q0 := by
          rw [hqs] at hq
          exact (by simpa using hq : q0 = q).symm
        subst hq'
        show (if st.bufTexts.isEmpty then some p.start else st.bufStart) = some q.start
        rw [if_neg he]
        exact h.hstart q (by rw [hqs]; rfl)
    · intro q hq
      have hq' : q = p := by
        rw [List.getLast?_concat] at hq
        exact (by simpa using hq : p = q).symm
      subst hq'
      rfl

theorem iRunL_step (mc : ℕ) (h1 : 1 ≤ mc) {st : IState} (hb : IRunB st) (hl : IRunL mc st)
    (p : Piece) : IRunL mc (iProcessPiece mc st p) := by
  simp only [iProcessPiece]
  by_cases hf : (isSentenceEnd p.text || decide (mc ≤ st.bufLen + p.text.length + 1)) = true
  · rw [if_pos hf]
    refine ⟨h1, ?_⟩
    intro x hx
    rcases List.mem_append.mp hx with hx1 | hx1
    · exact hl.ok x hx1
    · rcases List.mem_singleton.mp hx1 with rfl
      refine ⟨p, List.getLast?_concat _, ?_⟩
      show (stripChars (joinSpace (st.bufTexts ++ [p.text]))).length < mc + p.text.length
      have hj := joinSpace_length (st.bufTexts ++ [p.text]) (by simp)
      rw [List.map_append, List.sum_append] at hj
      simp only [List.map_cons, List.sum_cons, List.map_nil, List.sum_nil] at hj
      have hstr := stripChars_length_le (joinSpace (st.bufTexts ++ [p.text]))
      have hlen := h1
      have hlt := hl.lt
      rw [hb.len] at hlt
      omega
  · rw [if_neg hf]
    refine ⟨?_, hl.ok⟩
    show st.bufLen + p.text.length + 1 < mc
    simp only [Bool.or_eq_true, decide_eq_true_eq, not_or, Bool.not_eq_true] at hf
    omega

theorem iRunB_fold (mc : ℕ) : ∀ (ps : List Piece) (st : IState), IRunB st →
    IRunB (ps.foldl (iProcessPiece mc) st)
  | [], _, h => h
  | p :: ps, st, h => iRunB_fold mc ps _ (iRunB_step mc h p)

theorem iRunB_fragment (mc : ℕ) (st : IState) (f : RawFragment) (h : IRunB st) :
    IRunB (iProcessFragment mc st f) := by
  unfold iProcessFragment
  split
  · exact h
  · split
    · exact h
    · exact iRunB_fold mc _ st h

theorem iRunB_run (mc : ℕ) : ∀ (segs : List RawFragment) (st : IState), IRunB st →
    IRunB (segs.foldl (iProcessFragment mc) st)
  | [], _, h => h
  | f :: fs, st, h => iRunB_run mc fs _ (iRunB_fragment mc st f h)

theorem iRunL_init (mc : ℕ) (h1 : 1 ≤ mc) : IRunL mc iInit :=
  ⟨h1, fun x hx => absurd hx (by simp [iInit])⟩

theorem iRunL_fold (mc : ℕ) (h1 : 1 ≤ mc) : ∀ (ps : List Piece) (st : IState),
    IRunB st → IRunL mc st → IRunL mc (ps.foldl (iProcessPiece mc) st)
  | [], _, _, hl => hl
  | p :: ps, st, hb, hl =>
    iRunL_fold mc h1 ps _ (iRunB_step mc hb p) (iRunL_step mc h1 hb hl p)

theorem iRunL_fragment (mc : ℕ) (h1 : 1 ≤ mc) (st : IState) (f : RawFragment)
    (hb : IRunB st) (hl : IRunL mc st) : IRunL mc (iProcessFragment mc st f) := by
  unfold iProcessFragment
  split
  · exact hl
  · split
    · exact hl
    · exact iRunL_fold mc h1 _ st hb hl

theorem iRunL_run (mc : ℕ) (h1 : 1 ≤ mc) : ∀ (segs : List RawFragment) (st : IState),
    IRunB st → IRunL mc st → IRunL mc (segs.foldl (iProcessFragment mc) st)
  | [], _, _, hl => hl
  | f :: fs, st, hb, hl =>
    iRunL_run mc h1 fs _ (iRunB_fragment mc st f hb) (iRunL_fragment mc h1 st f hb hl)

theorem imerge_final_entry (segs : List RawFragment) (mc : ℕ) :
    ∀ x ∈ imerge segs mc,
      x ∈ (segs.foldl (iProcessFragment mc) iInit).merged ∨
      ∃ t ts b e,
        (segs.foldl (iProcessFragment mc) iInit).bufTexts = t :: ts ∧
        (segs.foldl (iProcessFragment mc) iInit).bufStart = some b ∧
        (segs.foldl (iProcessFragment mc) iInit).lastEnd = some e ∧
        x = (⟨stripChars (joinSpace (t :: ts)), b, round3 (e - b)⟩,
          (segs.foldl (iProcessFragment mc) iInit).bufPieces) := by
  intro x hx
  simp only [imerge] at hx
  rcases hbt : (segs.foldl (iProcessFragment mc) iInit).bufTexts with _ | ⟨t, ts⟩ <;>
    simp only [hbt] at hx
  · exact Or.inl hx
  · rcases hbs : (segs.foldl (iProcessFragment mc) iInit).bufStart with _ | b <;>
      simp only [hbs] at hx
    · exact Or.inl hx
    · rcases hle : (segs.foldl (iProcessFragment mc) iInit).lastEnd with _ | e <;>
        simp only [hle] at hx
      · exact Or.inl hx
      · rcases List.mem_append.mp hx with h1 | h1
        · exact Or.inl h1
        · exact Or.inr ⟨t, ts, b, e, rfl, rfl, rfl, List.mem_singleton.mp h1⟩

theorem bufPieces_last_props {st : IState} (hb : IRunB st) {t : List Char}
    {ts : List (List Char)} (hbt : st.bufTexts = t :: ts) {b e : ℚ}
    (hbs : st.bufStart = some b) (hle : st.lastEnd = some e) :
    ∃ p0 pL, st.bufPieces.head? = some p0 ∧ st.bufPieces.getLast? = some pL ∧
      b = p0.start ∧ e = pL.start + pL.duration ∧
      t :: ts = st.bufPieces.map Piece.text := by
  have hne : st.bufPieces ≠ [] := by
    intro h0
    rw [hb.texts, h0] at hbt
    cases hbt
  obtain ⟨q, qs, hqs⟩ := List.exists_cons_of_ne_nil hne
  have hp0 : st.bufPieces.head? = some q := by rw [hqs]; rfl
  have hLast : st.bufPieces.getLast? = some (st.bufPieces.getLast hne) :=
    List.getLast?_eq_getLast _ hne
  have hb' := hb.hstart q hp0
  rw [hbs] at hb'
  have hbq : b = q.start := by
    injection hb' with h0
  have hl' := hb.hlast _ hLast
  rw [hle] at hl'
  have hel : e = (st.bufPieces.getLast hne).start + (st.bufPieces.getLast hne).duration := by
    injection hl' with h0
  refine ⟨q, st.bufPieces.getLast hne, hp0, hLast, hbq, hel, ?_⟩
  rw [← hb.texts, hbt]

/-- C3 amended: every emitted SentenceSegment starts exactly at the start
of the first piece that contributed to it, and its duration is the
3-decimal rounding of the span to the last contributing piece's end; hence
start + duration equals the last contributing piece's end only up to the
rounding error of the emitted duration, bounded by 1/2000.  (Exact
equality — and the "exactly 4" of Scenario B — fails; see
`C3_counterexample`.)  The instrumented run `imerge` records the
contributing pieces and projects to `merge_segments_to_sentences`. -/
theorem C3_segment_timing_amended (segs : List RawFragment) (mc : ℕ) :
    (imerge segs mc).map Prod.fst = merge_segments_to_sentences segs mc ∧
      ∀ x ∈ imerge segs mc, ∃ p0 pL, x.2.head? = some p0 ∧ x.2.getLast? = some pL ∧
        x.1.start = p0.start ∧
        x.1.duration = round3 (pL.start + pL.duration - p0.start) ∧
        |x.1.start + x.1.duration - (pL.start + pL.duration)| ≤ 1 / 2000 := by
  have hb := iRunB_run mc segs iInit iRunB_init
  refine ⟨imerge_map_fst segs mc, ?_⟩
  intro x hx
  have hsegok : SegOK x := by
    rcases imerge_final_entry segs mc x hx with h1 | ⟨t, ts, b, e, hbt, hbs, hle, rfl⟩
    · exact hb.ok x h1
    · obtain ⟨p0, pL, hp0, hpL, hbq, hel, htxt⟩ := bufPieces_last_props hb hbt hbs hle
      refine ⟨p0, pL, hp0, hpL, hbq, ?_, ?_⟩
      · show round3 (e - b) = round3 (pL.start + pL.duration - p0.start)
        rw [hbq, hel]
      · show stripChars (joinSpace (t :: ts)) =
          stripChars (joinSpace
            ((segs.foldl (iProcessFragment mc) iInit).bufPieces.map Piece.text))
        rw [htxt]
  obtain ⟨p0, pL, hp0, hpL, hs, hdur, _⟩ := hsegok
  refine ⟨p0, pL, hp0, hpL, hs, hdur, ?_⟩
  rw [hs, hdur]
  have hr := round3_sub_le (pL.start + pL.duration - p0.start)
  have heq : p0.start + round3 (pL.start + pL.duration - p0.start) -
        (pL.start + pL.duration) =
      round3 (pL.start + pL.duration - p0.start) -
        (pL.start + pL.duration - p0.start) := by
    ring
  rw [heq]
  exact hr

set_option maxRecDepth 100000 in
/-- Witness for the amended C3 at the second Scenario B output entry. -/
theorem C3_segment_timing_amended_witness :
    ((⟨("How are you?").data, 12 / 7, 1143 / 500⟩,
        [⟨("How are you?").data, 12 / 7, 16 / 7⟩]) ∈ imerge scenarioB 120) ∧
      ∃ p0 pL,
        ([⟨("How are you?").data, 12 / 7, 16 / 7⟩] : List Piece).head? = some p0 ∧
        ([⟨("How are you?").data, 12 / 7, 16 / 7⟩] : List Piece).getLast? = some pL ∧
        (⟨("How are you?").data, 12 / 7, 1143 / 500⟩ : SentenceSegment).start = p0.start ∧
        (⟨("How are you?").data, 12 / 7, 1143 / 500⟩ : SentenceSegment).duration =
          round3 (pL.start + pL.duration - p0.start) ∧
        |(⟨("How are you?").data, 12 / 7, 1143 / 500⟩ : SentenceSegment).start +
            (⟨("How are you?").data, 12 / 7, 1143 / 500⟩ : SentenceSegment).duration -
            (pL.start + pL.duration)| ≤ 1 / 2000 :=
  ⟨by with_unfolding_all decide,
   (C3_segment_timing_amended scenarioB 120).2
     (⟨("How are you?").data, 12 / 7, 1143 / 500⟩,
       [⟨("How are you?").data, 12 / 7, 16 / 7⟩])
     (by with_unfolding_all decide)⟩

/-- C4: no emitted SentenceSegment's text length exceeds `max_chars` by
the length of its final contributing piece or more: the flushed text
length is strictly less than `max_chars` plus the last piece's length,
for every input and every positive `max_chars`.  The instrumented run
`imerge` records the contributing pieces and projects to
`merge_segments_to_sentences`. -/
theorem C4_threshold_loose (segs : List RawFragment) (mc : ℕ) (h1 : 1 ≤ mc) :
    (imerge segs mc).map Prod.fst = merge_segments_to_sentences segs mc ∧
      ∀ x ∈ imerge segs mc, ∃ pL, x.2.getLast? = some pL ∧
        x.1.text.length < mc + pL.text.length := by
  have hb := iRunB_run mc segs iInit iRunB_init
  have hl := iRunL_run mc h1 segs iInit iRunB_init (iRunL_init mc h1)
  refine ⟨imerge_map_fst segs mc, ?_⟩
  intro x hx
  rcases imerge_final_entry segs mc x hx with h2 | ⟨t, ts, b, e, hbt, hbs, hle, rfl⟩
  · exact hl.ok x h2
  · obtain ⟨p0, pL, hp0, hpL, _, _, htxt⟩ := bufPieces_last_props hb hbt hbs hle
    refine ⟨pL, hpL, ?_⟩
    show (stripChars (joinSpace (t :: ts))).length < mc + pL.text.length
    have hj := joinSpace_length (t :: ts) (by simp)
    have hstr := stripChars_length_le (joinSpace (t :: ts))
    have hlen := hb.len
    rw [hbt] at hlen
    have hlt := hl.lt
    rw [hlen] at hlt
    omega

set_option maxRecDepth 100000 in
/-- Witness for C4 at the second Scenario B output entry. -/
theorem C4_threshold_loose_witness :
    (1 ≤ 120 ∧
        (⟨("How are you?").data, 12 / 7, 1143 / 500⟩,
          [⟨("How are you?").data, 12 / 7, 16 / 7⟩]) ∈ imerge scenarioB 120) ∧
      ∃ pL, ([⟨("How are you?").data, 12 / 7, 16 / 7⟩] : List Piece).getLast? = some pL ∧
        (⟨("How are you?").data, 12 / 7, 1143 / 500⟩ : SentenceSegment).text.length <
          120 + pL.text.length :=
  ⟨⟨by decide, by with_unfolding_all decide⟩,
   (C4_threshold_loose scenarioB 120 (by decide)).2
     (⟨("How are you?").data, 12 / 7, 1143 / 500⟩,
       [⟨("How are you?").data, 12 / 7, 16 / 7⟩])
     (by with_unfolding_all decide)⟩

theorem wordsJoin_append (a b : List (List Char)) :
    wordsJoin (a ++ b) = wordsJoin a ++ wordsJoin b := by
  simp [wordsJoin]

theorem wordsJoin_nil : wordsJoin [] = [] := rfl

theorem wordsJoin_cons (t : List Char) (ts : List (List Char)) :
    wordsJoin (t :: ts) = words t ++ wordsJoin ts := by
  simp [wordsJoin]

theorem processPiece_words (mc : ℕ) (st : MState) (p : Piece) :
    wordsJoin ((processPiece mc st p).merged.map SentenceSegment.text) ++
      wordsJoin (processPiece mc st p).bufTexts =
    wordsJoin (st.merged.map SentenceSegment.text) ++ wordsJoin st.bufTexts ++
      words p.text := by
  simp only [processPiece]
  by_cases hf : (isSentenceEnd p.text || decide (mc ≤ st.bufLen + p.text.length + 1)) = true
  · rw [if_pos hf]
    simp only [List.map_append, List.map_cons, List.map_nil, wordsJoin_append,
      wordsJoin_cons, wordsJoin_nil, List.append_nil]
    rw [words_stripChars, words_joinSpace, wordsJoin_append, wordsJoin_cons,
      wordsJoin_nil, List.append_nil, List.append_assoc]
  · rw [if_neg hf]
    show wordsJoin (st.merged.map SentenceSegment.text) ++
        wordsJoin (st.bufTexts ++ [p.text]) = _
    rw [wordsJoin_append, wordsJoin_cons, wordsJoin_nil, List.append_nil,
      List.append_assoc]

theorem foldPieces_words (mc : ℕ) : ∀ (ps : List Piece) (st : MState),
    wordsJoin ((ps.foldl (processPiece mc) st).merged.map SentenceSegment.text) ++
      wordsJoin (ps.foldl (processPiece mc) st).bufTexts =
    wordsJoin (st.merged.map SentenceSegment.text) ++ wordsJoin st.bufTexts ++
      wordsJoin (ps.map Piece.text)
  | [], st => by simp [wordsJoin]
  | p :: ps, st => by
    rw [List.foldl_cons, foldPieces_words mc ps _, processPiece_words]
    simp [wordsJoin, List.append_assoc]

theorem processFragment_words (mc : ℕ) (st : MState) (f : RawFragment) :
    wordsJoin ((processFragment mc st f).merged.map SentenceSegment.text) ++
      wordsJoin (processFragment mc st f).bufTexts =
    wordsJoin (st.merged.map SentenceSegment.text) ++ wordsJoin st.bufTexts ++
      words f.text := by
  have hft : words (stripChars f.text) = words f.text := words_stripChars f.text
  simp only [processFragment]
  by_cases h1 : (stripChars f.text).isEmpty = true
  · rw [if_pos h1]
    have h0 : stripChars f.text = [] := List.isEmpty_iff.mp h1
    have hw : words f.text = [] := by rw [← hft, h0]; rfl
    rw [hw, List.append_nil]
  · rw [if_neg h1]
    by_cases h2 : (splitSentences (stripChars f.text)).isEmpty = true
    · rw [if_pos h2]
      have h0 : splitSentences (stripChars f.text) = [] := List.isEmpty_iff.mp h2
      have hw : words f.text = [] := by
        rw [← hft, ← words_splitSentences (stripChars f.text), h0]
        rfl
      rw [hw, List.append_nil]
    · rw [if_neg h2]
      rw [foldPieces_words, fragmentPieces_map_text, words_splitSentences, hft]

theorem run_words (mc : ℕ) : ∀ (segs : List RawFragment) (st : MState),
    wordsJoin ((segs.foldl (processFragment mc) st).merged.map SentenceSegment.text) ++
      wordsJoin (segs.foldl (processFragment mc) st).bufTexts =
    wordsJoin (st.merged.map SentenceSegment.text) ++ wordsJoin st.bufTexts ++
      wordsJoin (segs.map RawFragment.text)
  | [], st => by simp [wordsJoin]
  | f :: fs, st => by
    rw [List.foldl_cons, run_words mc fs _, processFragment_words]
    simp [wordsJoin, List.append_assoc]

theorem merge_words (segs : List RawFragment) (mc : ℕ) :
    words (joinSpace ((merge_segments_to_sentences segs mc).map SentenceSegment.text)) =
      wordsJoin (segs.map RawFragment.text) := by
  rw [words_joinSpace]
  have hrw := run_words mc segs initState
  have hinit1 : wordsJoin (initState.merged.map SentenceSegment.text) = [] := rfl
  have hinit2 : wordsJoin initState.bufTexts = [] := rfl
  rw [hinit1, hinit2, List.nil_append, List.nil_append] at hrw
  have hInv := bufInv_run mc segs initState bufInv_init
  simp only [merge_segments_to_sentences]
  cases hbt : (segs.foldl (processFragment mc) initState).bufTexts with
  | nil =>
    simp only [hbt]
    rw [hbt, wordsJoin_nil, List.append_nil] at hrw
    exact hrw
  | cons t ts =>
    obtain ⟨⟨b, hb⟩, ⟨e, he⟩⟩ := hInv.2 (by rw [hbt]; simp)
    simp only [hbt, hb, he]
    rw [List.map_append, wordsJoin_append]
    rw [hbt] at hrw
    rw [← hrw]
    congr 1
    simp only [List.map_cons, List.map_nil, wordsJoin_cons, wordsJoin_nil, List.append_nil]
    rw [words_stripChars, words_joinSpace, wordsJoin_cons]

theorem wordsJoin_filter_nonempty (segs : List RawFragment) :
    wordsJoin ((segs.filter (fun f => !f.text.isEmpty)).map RawFragment.text) =
      wordsJoin (segs.map RawFragment.text) := by
  induction segs with
  | nil => rfl
  | cons f fs ih =>
    simp only [List.filter_cons, List.map_cons]
    by_cases hf : f.text.isEmpty = true
    · simp only [hf, Bool.not_true, Bool.false_eq_true, if_false]
      have h0 : f.text = [] := List.isEmpty_iff.mp hf
      have hw : words f.text = [] := by rw [h0]; rfl
      rw [ih]
      show _ = wordsJoin (f.text :: fs.map RawFragment.text)
      show _ = words f.text ++ wordsJoin (fs.map RawFragment.text)
      rw [hw, List.nil_append]
    · simp only [hf, Bool.not_false, if_true, List.map_cons]
      show words f.text ++ wordsJoin ((fs.filter (fun f => !f.text.isEmpty)).map
        RawFragment.text) = words f.text ++ wordsJoin (fs.map RawFragment.text)
      rw [ih]

/-- C2 amended: joining the output texts with single spaces and collapsing
whitespace reproduces the collapsed single-space join of the (non-empty)
input fragment texts in order — the words of the output are exactly the
words of the input, in order; no text is lost, duplicated or reordered.
(The input side must also be read with a separator between fragment texts:
with literal concatenation the claim fails, see `C2_counterexample`.) -/
theorem C2_text_preserved_amended (segs : List RawFragment) (mc : ℕ) :
    collapse (joinSpace ((merge_segments_to_sentences segs mc).map SentenceSegment.text)) =
      collapse (joinSpace ((segs.filter (fun f => !f.text.isEmpty)).map
        RawFragment.text)) := by
  unfold collapse
  congr 1
  rw [merge_words, words_joinSpace, wordsJoin_filter_nonempty]

theorem mem_joinSpace {c : Char} : ∀ {ts : List (List Char)} {t : List Char},
    t ∈ ts → c ∈ t → c ∈ joinSpace ts
  | [], _, h, _ => absurd h (by simp)
  | [u], t, h, hc => by
    obtain rfl : t = u := by simpa using h
    simpa [joinSpace] using hc
  | u :: v :: ts, t, h, hc => by
    rcases List.mem_cons.mp h with rfl | h'
    · show c ∈ t ++ ' ' :: joinSpace (v :: ts)
      exact List.mem_append.mpr (Or.inl hc)
    · have hrec : c ∈ joinSpace (v :: ts) := mem_joinSpace h' hc
      show c ∈ u ++ ' ' :: joinSpace (v :: ts)
      exact List.mem_append.mpr (Or.inr (List.mem_cons_of_mem _ hrec))

theorem splitSentences_mem_nonspace {t u : List Char} (hu : u ∈ splitSentences t) :
    ∃ c ∈ u, isSpace c = false := by
  unfold splitSentences at hu
  obtain ⟨hu1, hu2⟩ := List.mem_filter.mp hu
  obtain ⟨v, _, rfl⟩ := List.mem_map.mp hu1
  apply stripChars_has_nonspace
  intro h0
  rw [h0] at hu2
  simp at hu2

theorem nonNil_step (mc : ℕ) (st : MState) (p : Piece)
    (hp : ∃ c ∈ p.text, isSpace c = false)
    (h1 : ∀ t ∈ st.bufTexts, ∃ c ∈ t, isSpace c = false)
    (h2 : ∀ s ∈ st.merged, s.text ≠ []) :
    (∀ t ∈ (processPiece mc st p).bufTexts, ∃ c ∈ t, isSpace c = false) ∧
      ∀ s ∈ (processPiece mc st p).merged, s.text ≠ [] := by
  obtain ⟨c, hc, hcs⟩ := hp
  simp only [processPiece]
  by_cases hf : (isSentenceEnd p.text || decide (mc ≤ st.bufLen + p.text.length + 1)) = true
  · rw [if_pos hf]
    refine ⟨fun t ht => absurd ht (by simp), ?_⟩
    intro s hs
    rcases List.mem_append.mp hs with hs1 | hs1
    · exact h2 s hs1
    · rcases List.mem_singleton.mp hs1 with rfl
      show stripChars (joinSpace (st.bufTexts ++ [p.text])) ≠ []
      have hcj : c ∈ joinSpace (st.bufTexts ++ [p.text]) :=
        mem_joinSpace (List.mem_append.mpr (Or.inr (List.mem_singleton.mpr rfl))) hc
      have := mem_stripChars hcj hcs
      exact List.ne_nil_of_mem this
  · rw [if_neg hf]
    refine ⟨?_, h2⟩
    intro t ht
    rcases List.mem_append.mp ht with ht1 | ht1
    · exact h1 t ht1
    · rcases List.mem_singleton.mp ht1 with rfl
      exact ⟨c, hc, hcs⟩

theorem nonNil_foldPieces (mc : ℕ) : ∀ (ps : List Piece) (st : MState),
    (∀ p ∈ ps, ∃ c ∈ p.text, isSpace c = false) →
    (∀ t ∈ st.bufTexts, ∃ c ∈ t, isSpace c = false) →
    (∀ s ∈ st.merged, s.text ≠ []) →
    (∀ t ∈ (ps.foldl (processPiece mc) st).bufTexts, ∃ c ∈ t, isSpace c = false) ∧
      ∀ s ∈ (ps.foldl (processPiece mc) st).merged, s.text ≠ []
  | [], _, _, h1, h2 => ⟨h1, h2⟩
  | p :: ps, st, hp, h1, h2 => by
    obtain ⟨g1, g2⟩ := nonNil_step mc st p (hp p (List.mem_cons_self _ _)) h1 h2
    exact nonNil_foldPieces mc ps _ (fun q hq => hp q (List.mem_cons_of_mem _ hq)) g1 g2

theorem nonNil_fragment (mc : ℕ) (st : MState) (f : RawFragment)
    (h1 : ∀ t ∈ st.bufTexts, ∃ c ∈ t, isSpace c = false)
    (h2 : ∀ s ∈ st.merged, s.text ≠ []) :
    (∀ t ∈ (processFragment mc st f).bufTexts, ∃ c ∈ t, isSpace c = false) ∧
      ∀ s ∈ (processFragment mc st f).merged, s.text ≠ [] := by
  unfold processFragment
  split
  · exact ⟨h1, h2⟩
  · split
    · exact ⟨h1, h2⟩
    · apply nonNil_foldPieces mc _ st _ h1 h2
      intro p hp
      have : p.text ∈ (fragmentPieces f).map Piece.text := List.mem_map_of_mem _ hp
      rw [fragmentPieces_map_text] at this
      exact splitSentences_mem_nonspace this

theorem nonNil_run (mc : ℕ) : ∀ (segs : List RawFragment) (st : MState),
    (∀ t ∈ st.bufTexts, ∃ c ∈ t, isSpace c = false) →
    (∀ s ∈ st.merged, s.text ≠ []) →
    (∀ t ∈ (segs.foldl (processFragment mc) st).bufTexts, ∃ c ∈ t, isSpace c = false) ∧
      ∀ s ∈ (segs.foldl (processFragment mc) st).merged, s.text ≠ []
  | [], _, h1, h2 => ⟨h1, h2⟩
  | f :: fs, st, h1, h2 => by
    obtain ⟨g1, g2⟩ := nonNil_fragment mc st f h1 h2
    exact nonNil_run mc fs _ g1 g2

theorem fold_all_blank (mc : ℕ) : ∀ (segs : List RawFragment) (st : MState),
    (∀ f ∈ segs, stripChars f.text = []) →
    segs.foldl (processFragment mc) st = st
  | [], _, _ => rfl
  | f :: fs, st, h => by
    have he : (stripChars f.text).isEmpty = true := by
      rw [h f (List.mem_cons_self _ _)]
      rfl
    rw [List.foldl_cons]
    have hpf : processFragment mc st f = st := by
      unfold processFragment
      rw [if_pos he]
    rw [hpf]
    exact fold_all_blank mc fs st (fun g hg => h g (List.mem_cons_of_mem _ hg))

/-- C9: fragments whose text is empty or all-whitespace are silently
skipped (removing such a head fragment does not change the output), every
emitted SentenceSegment has non-empty text, and an input consisting only
of blank fragments — including the empty input — yields the empty output
rather than an error. -/
theorem C9_empty_skipped (segs : List RawFragment) (mc : ℕ) :
    (∀ s ∈ merge_segments_to_sentences segs mc, s.text ≠ []) ∧
      ((∀ f ∈ segs, stripChars f.text = []) → merge_segments_to_sentences segs mc = []) ∧
      ∀ (f : RawFragment) (rest : List RawFragment), stripChars f.text = [] →
        merge_segments_to_sentences (f :: rest) mc =
          merge_segments_to_sentences rest mc := by
  refine ⟨?_, ?_, ?_⟩
  · intro s hs
    obtain ⟨g1, g2⟩ := nonNil_run mc segs initState
      (fun t ht => absurd ht (by simp [initState]))
      (fun s hs => absurd hs (by simp [initState]))
    simp only [merge_segments_to_sentences] at hs
    rcases hbt : (segs.foldl (processFragment mc) initState).bufTexts with _ | ⟨t, ts⟩ <;>
      simp only [hbt] at hs
    · exact g2 s hs
    · rcases hbs : (segs.foldl (processFragment mc) initState).bufStart with _ | b <;>
        simp only [hbs] at hs
      · exact g2 s hs
      · rcases hle : (segs.foldl (processFragment mc) initState).lastEnd with _ | e <;>
          simp only [hle] at hs
        · exact g2 s hs
        · rcases List.mem_append.mp hs with hs1 | hs1
          · exact g2 s hs1
          · rcases List.mem_singleton.mp hs1 with rfl
            show stripChars (joinSpace (t :: ts)) ≠ []
            obtain ⟨c, hc, hcs⟩ := g1 t (by rw [hbt]; exact List.mem_cons_self _ _)
            exact List.ne_nil_of_mem
              (mem_stripChars (mem_joinSpace (List.mem_cons_self _ _) hc) hcs)
  · intro h
    simp only [merge_segments_to_sentences]
    rw [fold_all_blank mc segs initState h]
    rfl
  · intro f rest h
    have he : (stripChars f.text).isEmpty = true := by
      rw [h]
      rfl
    have hpf : processFragment mc initState f = initState := by
      unfold processFragment
      rw [if_pos he]
    simp only [merge_segments_to_sentences, List.foldl_cons, hpf]

set_option maxRecDepth 100000 in
/-- Witness for C9 at the Scenario C input, an all-whitespace input, and a
blank fragment prefixed to Scenario C. -/
theorem C9_empty_skipped_witness :
    ((⟨("I think ").data ++ thatsFine, 0, 5 / 2⟩ : SentenceSegment) ∈
        merge_segments_to_sentences scenarioC 120 ∧
      ("I think ").data ++ thatsFine ≠ []) ∧
      ((∀ f ∈ scenarioBlank, stripChars f.text = []) ∧
        merge_segments_to_sentences scenarioBlank 120 = []) ∧
      (stripChars (("   ").data) = [] ∧
        merge_segments_to_sentences (⟨("   ").data, 0, 1⟩ :: scenarioC) 120 =
          merge_segments_to_sentences scenarioC 120) :=
  ⟨⟨by with_unfolding_all decide,
    (C9_empty_skipped scenarioC 120).1 ⟨("I think ").data ++ thatsFine, 0, 5 / 2⟩
      (by with_unfolding_all decide)⟩,
   ⟨by with_unfolding_all decide,
    (C9_empty_skipped scenarioBlank 120).2.1 (by with_unfolding_all decide)⟩,
   ⟨by with_unfolding_all decide,
    (C9_empty_skipped scenarioC 120).2.2 ⟨("   ").data, 0, 1⟩ scenarioC
      (by with_unfolding_all decide)⟩⟩
